import Mathlib

/-!
Psi chat composer (`src/msgmle.cpp`): message history and auto-capitalisation.

A shallow embedding of the two pieces of logic in `msgmle.cpp` that the
specification talks about:

* `ChatEdit` owns the list of sent messages (`typedMsgsHistory`), the
  navigation index (`typedMsgsIndex`), the saved draft (`currentText`) and the
  `correction` flag, and moves through the history with
  `showHistoryMessagePrev/Next/First/Last`;
* `CapitalLettersController` reacts to `QTextDocument::contentsChange` and
  capitalises the letter just typed when it starts a sentence.

Conventions of the embedding

* `QChar` is `Char`, `QString` is `List Char`, `QStringList` is a list of them.
* The character classification of Qt (`QChar::isSpace`, `isLetter`, `isLower`,
  `toUpper`, `toLower`) is library data, not code of this file; it is a
  parameter (`QCharTraits`).  `asciiTraits` is one concrete choice, used for
  the concrete scenarios.
* `MAX_MESSAGE_HISTORY` is a macro of `msgmle.h`; it is a parameter `MAX`.
* `int` values are `Int` where the code subtracts (`typedMsgsIndex`), and
  `Nat` for document positions and lengths.
* `typedMsgsHistory.at(i)` is only defined for `0 <= i < size()`; the embedding
  makes the navigation functions return `Option`, with `none` standing for an
  out-of-range read.
* `setEditText(t)` (that is `setPlainText(t)` followed by
  `moveCursor(QTextCursor::End)`) is embedded as "the buffer becomes `t`".
* The `QRegExp` of `textChanged` is embedded as data (`capitalizeAfter`) for a
  small matcher: `matchedLengthAt` is the longest match anchored at an offset,
  `lastIndexOf` tries the offsets from the last character down to 0.
* `changeCase` is embedded with its loop (`changeCaseLoop`), the saved and
  restored `enabled_` flag and the cursor put back at its old position.
-/

namespace Psi

/-! ## Text model -/

abbrev QChar := Char
abbrev QString := List Char
abbrev QStringList := List QString

/-- The character classification functions of `QChar` used by `msgmle.cpp`. -/
structure QCharTraits where
  isSpace : QChar → Bool
  isLetter : QChar → Bool
  isLower : QChar → Bool
  toUpper : QChar → QChar
  toLower : QChar → QChar

/-- Code points for which `QChar::isSpace` holds: tab to carriage return,
space, next line, no-break space and the Unicode separators. -/
def isSpaceCodePoint (c : QChar) : Bool :=
  let n := c.toNat
  (9 ≤ n && n ≤ 13) || n == 32 || n == 0x85 || n == 0xA0 || n == 0x1680
    || (0x2000 ≤ n && n ≤ 0x200A) || n == 0x2028 || n == 0x2029 || n == 0x202F
    || n == 0x205F || n == 0x3000

/-- A concrete classification: the ASCII letters, with their usual case
mapping, and the white space of `isSpaceCodePoint`. -/
def asciiTraits : QCharTraits where
  isSpace := isSpaceCodePoint
  isLetter := fun c => c.isAlpha
  isLower := fun c => c.isLower
  toUpper := fun c => c.toUpper
  toLower := fun c => c.toLower

/-- The test `text.simplified().isEmpty()`: `simplified` strips white space
from both ends (and squeezes inner runs), so the result is empty exactly when
every character of `text` is white space. -/
def simplifiedIsEmpty (tr : QCharTraits) (text : QString) : Bool :=
  text.all tr.isSpace

/-- The function `QStringList::indexOf(text)`: index of the first equal entry, `-1` if there
is none. -/
def indexOf : QStringList → QString → Int
  | [], _ => -1
  | e :: l, text =>
    if e = text then 0
    else if indexOf l text ≥ 0 then indexOf l text + 1 else -1

/-- The function `QList::removeAt(i)`: removes the entry at `i` when `0 <= i < size()`, and
does nothing otherwise. -/
def removeAt (l : QStringList) (i : Int) : QStringList :=
  if 0 ≤ i ∧ i < l.length then l.eraseIdx i.toNat else l

/-! ## ChatEdit: the message history -/

/-- The fields of `ChatEdit` that the history code reads and writes, plus the
plain text of the edit widget (`toPlainText()`). -/
structure ChatEdit where
  typedMsgsHistory : QStringList
  typedMsgsIndex : Int
  currentText : QString
  correction : Bool
  plainText : QString
  deriving DecidableEq

/-- State of a freshly constructed `ChatEdit`: empty history,
`typedMsgsIndex = 0`, no saved draft, `correction` off, empty buffer. -/
def ChatEdit.init : ChatEdit :=
  { typedMsgsHistory := [], typedMsgsIndex := 0, currentText := [],
    correction := false, plainText := [] }

/-- The call `typedMsgsHistory.size()`, as an `int`. -/
def ChatEdit.size (s : ChatEdit) : Int := (s.typedMsgsHistory.length : Int)

/-- The method `ChatEdit::setEditText`. -/
def setEditText (s : ChatEdit) (text : QString) : ChatEdit :=
  { s with plainText := text }

/-- The method `ChatEdit::showMessageHistory`: `setEditText(typedMsgsHistory.at(typedMsgsIndex))`.
`none` when the index is outside `[0, size())`. -/
def showMessageHistory (s : ChatEdit) : Option ChatEdit :=
  if 0 ≤ s.typedMsgsIndex then
    match s.typedMsgsHistory.get? s.typedMsgsIndex.toNat with
    | some text => some (setEditText s text)
    | none => none
  else none

/-- The method `ChatEdit::appendMessageHistory` (`recordSent` in the specification). -/
def appendMessageHistory (MAX : Nat) (tr : QCharTraits) (text : QString) (s : ChatEdit) :
    ChatEdit :=
  if !simplifiedIsEmpty tr text then
    let s1 := if s.currentText = text then { s with currentText := [] } else s
    let index := indexOf s1.typedMsgsHistory text
    let h1 := if index ≥ 0 then removeAt s1.typedMsgsHistory index else s1.typedMsgsHistory
    let h2 := if (h1.length : Int) ≥ (MAX : Int) then removeAt h1 0 else h1
    let h3 := h2 ++ [text]
    { s1 with typedMsgsHistory := h3, typedMsgsIndex := (h3.length : Int) }
  else s

/-- The method `ChatEdit::clearMessageHistory` (`clear`). -/
def clearMessageHistory (s : ChatEdit) : ChatEdit :=
  { s with typedMsgsHistory := [], typedMsgsIndex := 0 }

/-- The method `ChatEdit::showHistoryMessageNext` (`showNext`). -/
def showHistoryMessageNext (s : ChatEdit) : Option ChatEdit :=
  let s := { s with correction := false }
  if !s.typedMsgsHistory.isEmpty then
    if s.typedMsgsIndex + 1 < s.size then
      showMessageHistory { s with typedMsgsIndex := s.typedMsgsIndex + 1 }
    else if s.typedMsgsIndex ≠ s.size then
      some (setEditText { s with typedMsgsIndex := s.size } s.currentText)
    else some s
  else some s

/-- The method `ChatEdit::showHistoryMessagePrev` (`showPrevious`). -/
def showHistoryMessagePrev (s : ChatEdit) : Option ChatEdit :=
  if !s.typedMsgsHistory.isEmpty ∧ (s.typedMsgsIndex > 0 ∨ s.correction) then
    let s1 := if s.typedMsgsIndex = s.size then
        { s with currentText := s.plainText, correction := true }
      else s
    let s2 := if s1.typedMsgsIndex = s1.size - 1 ∧ s1.correction then
        { s1 with correction := false, typedMsgsIndex := s1.typedMsgsIndex + 1 }
      else s1
    showMessageHistory { s2 with typedMsgsIndex := s2.typedMsgsIndex - 1 }
  else some s

/-- The method `ChatEdit::showHistoryMessageFirst` (`showFirst`). -/
def showHistoryMessageFirst (s : ChatEdit) : Option ChatEdit :=
  let s := { s with correction := false }
  if !s.typedMsgsHistory.isEmpty then
    if s.currentText.isEmpty then
      showMessageHistory { s with typedMsgsIndex := s.size - 1 }
    else
      some (setEditText { s with typedMsgsIndex := s.size } s.currentText)
  else some s

/-- The method `ChatEdit::showHistoryMessageLast` (`showLast`). -/
def showHistoryMessageLast (s : ChatEdit) : Option ChatEdit :=
  let s := { s with correction := false }
  if !s.typedMsgsHistory.isEmpty then
    showMessageHistory { s with typedMsgsIndex := 0 }
  else some s

/-- The operations a user can trigger on the composer.  `typed b` stands for
any editing of the buffer that leaves it holding `b`; it does not go through
the history code. -/
inductive Op where
  | recordSent (text : QString)
  | showPrevious
  | showNext
  | showFirst
  | showLast
  | clear
  | typed (b : QString)
  deriving DecidableEq

/-- One operation. -/
def step (MAX : Nat) (tr : QCharTraits) (s : ChatEdit) : Op → Option ChatEdit
  | .recordSent text => some (appendMessageHistory MAX tr text s)
  | .showPrevious => showHistoryMessagePrev s
  | .showNext => showHistoryMessageNext s
  | .showFirst => showHistoryMessageFirst s
  | .showLast => showHistoryMessageLast s
  | .clear => some (clearMessageHistory s)
  | .typed b => some { s with plainText := b }

/-- A sequence of operations, left to right; `none` as soon as one of them
reads the history out of range. -/
def run (MAX : Nat) (tr : QCharTraits) : List Op → ChatEdit → Option ChatEdit
  | [], s => some s
  | op :: ops, s =>
    match step MAX tr s op with
    | some s1 => run MAX tr ops s1
    | none => none

/-- A sequence of `appendMessageHistory` calls, left to right. -/
def recordAll (MAX : Nat) (tr : QCharTraits) (texts : List QString) (s : ChatEdit) : ChatEdit :=
  texts.foldl (fun acc text => appendMessageHistory MAX tr text acc) s

/-! ## CapitalLettersController: auto-capitalisation -/

/-- The edit widget as the controller sees it: the plain text of the document
and the widget text cursor (`position`, and `anchor` for a selection). -/
structure TextEdit where
  text : QString
  position : Nat
  anchor : Nat
  deriving DecidableEq

/-- The call `QTextCursor::atEnd()` on the widget cursor. -/
def TextEdit.atEnd (te : TextEdit) : Bool := te.position == te.text.length

/-- How Qt moves a cursor at `p` when `n` characters are removed at `start`. -/
def adjustRemoved (start n p : Nat) : Nat :=
  if p < start then p else if p < start + n then start else p - n

/-- How Qt moves a cursor at `p` when `n` characters are inserted at `start`. -/
def adjustInserted (start n p : Nat) : Nat :=
  if p < start then p else p + n

/-- Removal of the `n` characters at `start` from the document. -/
def TextEdit.removeChars (te : TextEdit) (start n : Nat) : TextEdit :=
  { text := te.text.take start ++ te.text.drop (start + n),
    position := adjustRemoved start n te.position,
    anchor := adjustRemoved start n te.anchor }

/-- Insertion of `s` at `start` into the document. -/
def TextEdit.insertChars (te : TextEdit) (start : Nat) (s : QString) : TextEdit :=
  { text := te.text.take start ++ s ++ te.text.drop start,
    position := adjustInserted start s.length te.position,
    anchor := adjustInserted start s.length te.anchor }

/-- The controller: the widget it watches and its `enabled_` flag. -/
structure CapitalLettersController where
  te : TextEdit
  enabled : Bool
  deriving DecidableEq

/-- The method `CapitalLettersController::changeChar`: a cursor is put at `pos + 1`, the
character before it is deleted and `c` is inserted in its place (with the
format of the deleted character).  Both callers pass a `pos` at which the
document holds a letter, so `pos + 1` is a valid cursor position. -/
def changeChar (ctl : CapitalLettersController) (pos : Nat) (c : QChar) :
    CapitalLettersController :=
  if pos + 1 ≤ ctl.te.text.length then
    { ctl with te := (ctl.te.removeChars pos 1).insertChars pos [c] }
  else ctl

/-- The method `CapitalLettersController::capitalizeChar`. -/
def capitalizeChar (tr : QCharTraits) (ctl : CapitalLettersController) (pos : Nat) (c : QChar) :
    CapitalLettersController :=
  changeChar ctl pos (tr.toUpper c)

/-- The method `CapitalLettersController::decapitalizeChar`. -/
def decapitalizeChar (tr : QCharTraits) (ctl : CapitalLettersController) (pos : Nat)
    (c : QChar) : CapitalLettersController :=
  changeChar ctl pos (tr.toLower c)

/-- The pieces the pattern of `textChanged` is made of: the caret, one
character of a class, and `n` or more characters of a class. -/
inductive RxAtom where
  | caret
  | one (p : QChar → Bool)
  | atLeast (n : Nat) (p : QChar → Bool)

/-- A pattern: alternatives, each a sequence of atoms. -/
abbrev Rx := List (List RxAtom)

/-- All positions at which a match of one atom that starts at `i` can end. -/
def atomEnds (text : QString) (i : Nat) : RxAtom → List Nat
  | .caret => if i = 0 then [i] else []
  | .one p =>
    match text.get? i with
    | some c => if p c then [i + 1] else []
    | none => []
  | .atLeast n p =>
    let r := ((text.drop i).takeWhile p).length
    ((List.range (r + 1)).filter (fun k => n ≤ k)).map (fun k => i + k)

/-- All positions at which a match of a sequence of atoms that starts at `i`
can end. -/
def seqEnds (text : QString) (atoms : List RxAtom) (i : Nat) : List Nat :=
  atoms.foldl (fun ends a => ends.flatMap (fun j => atomEnds text j a)) [i]

/-- The result `QRegExp` gives for a match attempt anchored at `i`: the length of the longest
match of the pattern that starts at `i`, if there is one. -/
def matchedLengthAt (rx : Rx) (text : QString) (i : Nat) : Option Nat :=
  ((rx.flatMap (fun atoms => seqEnds text atoms i)).max?).map (fun j => j - i)

/-- The loop of `QRegExp::lastIndexIn`: offsets `n - 1`, `n - 2`, ..., `0` are
tried in turn; the first that has a match gives the index and the matched
length. -/
def lastIndexFrom (rx : Rx) (text : QString) : Nat → Option (Nat × Nat)
  | 0 => none
  | n + 1 =>
    match matchedLengthAt rx text n with
    | some len => some (n, len)
    | none => lastIndexFrom rx text n

/-- The call `text.lastIndexOf(rx)`: the search starts at the last character. -/
def lastIndexOf (text : QString) (rx : Rx) : Option (Nat × Nat) :=
  lastIndexFrom rx text text.length

/-- The pattern `(?:^[^.][.]+\s+)|(?:\s*[^.]{2,}[.]+\s+)|(?:[!?]\s+)`. -/
def capitalizeAfter (tr : QCharTraits) : Rx :=
  [ [.caret, .one (fun c => c != '.'), .atLeast 1 (fun c => c == '.'), .atLeast 1 tr.isSpace],
    [.atLeast 0 tr.isSpace, .atLeast 2 (fun c => c != '.'), .atLeast 1 (fun c => c == '.'),
      .atLeast 1 tr.isSpace],
    [.one (fun c => c == '!' || c == '?'), .atLeast 1 tr.isSpace] ]

/-- The test `index != -1 && index == pos - capitalizeAfter.matchedLength()`. -/
def boundaryEndsAt (tr : QCharTraits) (text : QString) (pos : Nat) : Bool :=
  match lastIndexOf text (capitalizeAfter tr) with
  | some (index, len) => (index : Int) == (pos : Int) - (len : Int)
  | none => false

/-- The slot `CapitalLettersController::textChanged(pos, charsRemoved, charsAdded)`, run on
the document as it is after the change.  One call is one notification: the
notifications that the rewrite made by `changeChar` would raise in turn are
not part of the embedding. -/
def textChanged (tr : QCharTraits) (ctl : CapitalLettersController)
    (pos _charsRemoved charsAdded : Nat) : CapitalLettersController :=
  if ctl.enabled then
    if charsAdded = 0 then ctl
    else if !ctl.te.atEnd then ctl
    else
      let capitalizeNext : Option Bool :=
        if pos = 0 ∧ charsAdded < 3 then some true
        else if charsAdded > 1 then none
        else some (boundaryEndsAt tr ctl.te.text pos)
      match capitalizeNext with
      | none => ctl
      | some false => ctl
      | some true =>
        match ctl.te.text.get? pos with
        | some ch =>
          if !tr.isLetter ch || !tr.isLower ch then ctl
          else capitalizeChar tr ctl pos ch
        | none => ctl
  else ctl

/-- The call `QTextCursor::hasSelection()` on the widget cursor. -/
def TextEdit.hasSelection (te : TextEdit) : Bool := te.anchor != te.position

/-- The call `QTextCursor::selectionStart()` on the widget cursor. -/
def TextEdit.selectionStart (te : TextEdit) : Nat := min te.anchor te.position

/-- The call `QTextCursor::selectionEnd()` on the widget cursor. -/
def TextEdit.selectionEnd (te : TextEdit) : Nat := max te.anchor te.position

/-- The call `QTextDocument::characterCount()`: the characters of the text plus the
separator that ends the last block. -/
def TextEdit.characterCount (te : TextEdit) : Nat := te.text.length + 1

/-- One turn of the `for` loop of `changeCase`, at index `begin`.  At the end
position `characterAt` gives the block separator, which is not a letter; the
text has no character there. -/
def changeCaseAt (tr : QCharTraits) (ctl : CapitalLettersController) (begin : Nat) :
    CapitalLettersController :=
  match ctl.te.text.get? begin with
  | some ch =>
    if !tr.isLetter ch then ctl
    else if tr.isLower ch then capitalizeChar tr ctl begin ch
    else decapitalizeChar tr ctl begin ch
  | none => ctl

/-- The loop `for (; begin < end; begin++)` of `changeCase`, with `count` turns
left (`count = end - begin`). -/
def changeCaseLoop (tr : QCharTraits) : Nat → Nat → CapitalLettersController →
    CapitalLettersController
  | 0, _, ctl => ctl
  | count + 1, begin, ctl => changeCaseLoop tr count (begin + 1) (changeCaseAt tr ctl begin)

/-- First index of the range `changeCase` works on. -/
def changeCaseBegin (te : TextEdit) : Nat :=
  if te.hasSelection then te.selectionStart else 0

/-- End (exclusive) of the range `changeCase` works on. -/
def changeCaseEnd (te : TextEdit) : Nat :=
  if te.hasSelection then te.selectionEnd else te.characterCount

/-- The controller while the loop of `changeCase` runs and just after it:
`enabled_` is off. -/
def changeCaseRewrite (tr : QCharTraits) (ctl : CapitalLettersController) :
    CapitalLettersController :=
  changeCaseLoop tr (changeCaseEnd ctl.te - changeCaseBegin ctl.te) (changeCaseBegin ctl.te)
    { ctl with enabled := false }

/-- The slot `CapitalLettersController::changeCase` (`toggleCase`): `enabled_` is saved and
switched off, the range is rewritten, the cursor is put back at the position
it had (`oldCur.setPosition(pos)`, which also drops the selection) and
`enabled_` is restored. -/
def changeCase (tr : QCharTraits) (ctl : CapitalLettersController) : CapitalLettersController :=
  let tmpEnabled := ctl.enabled
  let pos := ctl.te.position
  let done := changeCaseRewrite tr ctl
  { te := { done.te with position := pos, anchor := pos }, enabled := tmpEnabled }

/-- The case swap the specification describes for one character: a letter
becomes upper case if it is lower case and lower case otherwise, any other
character is kept. -/
def swapCase (tr : QCharTraits) (ch : QChar) : QChar :=
  if tr.isLetter ch then (if tr.isLower ch then tr.toUpper ch else tr.toLower ch) else ch

/-- Every index from `i` up to `j` (excluded) holds a character of the class
`p`. -/
def AllIn (text : QString) (p : QChar → Bool) (i j : Nat) : Prop :=
  ∀ q, i ≤ q → q < j → ∃ ch, text[q]? = some ch ∧ p ch = true

/-- The shape of a text in which a run of periods (`a` to `b`) and then a run
of white space (`b` to `n`) come just before the last character `c`, itself
not white space. -/
structure BoundaryShape (tr : QCharTraits) (text : QString) (a b n : Nat) (c : QChar) : Prop where
  hab : a < b
  hbn : b < n
  hlen : text.length = n + 1
  periods : AllIn text (fun c => c == '.') a b
  spaces : AllIn text tr.isSpace b n
  last : text[n]? = some c
  lastNotSpace : tr.isSpace c = false
  dotNotSpace : tr.isSpace '.' = false

/-- In the sequence `texts` of sent texts, the most recent send of `a` comes
before the most recent send of `b`: after the last occurrence of `a` there is
still an occurrence of `b`. -/
def SentBefore (texts : List QString) (a b : QString) : Prop :=
  ∃ l1 l2, texts = l1 ++ a :: l2 ∧ a ∉ l2 ∧ b ∈ l2

/-- The texts of a sequence of `recordSent` calls that are recorded: those
that are not blank. -/
def recorded (tr : QCharTraits) (texts : List QString) : List QString :=
  texts.filter (fun t => !simplifiedIsEmpty tr t)

/-- What every reachable state satisfies: the index is within `[0, size()]`,
and `correction` is only set at the newest entry or at the live draft. -/
def Inv (s : ChatEdit) : Prop :=
  0 ≤ s.typedMsgsIndex ∧ s.typedMsgsIndex ≤ s.size ∧
    (s.correction = true → s.typedMsgsIndex = s.size ∨ s.typedMsgsIndex + 1 = s.size)

instance (s : ChatEdit) : Decidable (Inv s) := by
  unfold Inv
  infer_instance

/-- The history after `recordSent(X)` as the specification words it: the entry
equal to `X` is removed, then the oldest (first) entry is dropped if
`MAX_MESSAGE_HISTORY` entries still remain, then `X` is appended as the last
entry. -/
def recordSentSpec (MAX : Nat) (h : QStringList) (X : QString) : QStringList :=
  let removed := h.filter (fun e => decide (e ≠ X))
  let evicted := if removed.length = MAX then removed.drop 1 else removed
  evicted ++ [X]

/-! ## Facts about the list primitives -/

theorem indexOf_bounds (l : QStringList) (text : QString) :
    indexOf l text = -1 ∨ (0 ≤ indexOf l text ∧ indexOf l text < (l.length : Int)) := by
  induction l with
  | nil => left; rfl
  | cons e l ih =>
    unfold indexOf
    by_cases he : e = text
    · right; simp [he]
    · rcases ih with h | ⟨h1, h2⟩
      · left; simp [he, h]
      · right; simp only [he, if_false, ge_iff_le, h1, if_true, List.length_cons]
        push_cast; omega

theorem removeAt_indexOf (l : QStringList) (text : QString) :
    (if indexOf l text ≥ 0 then removeAt l (indexOf l text) else l) = l.erase text := by
  induction l with
  | nil => simp [indexOf, removeAt]
  | cons e l ih =>
    by_cases he : e = text
    · subst he
      simp [indexOf, removeAt]
    · have hne : (e == text) = false := by simpa using he
      rw [List.erase_cons, hne]
      rcases indexOf_bounds l text with h | ⟨h1, h2⟩
      · have hi : indexOf (e :: l) text = -1 := by simp [indexOf, he, h]
        rw [h] at ih
        simp only [hi] at *
        simp at ih ⊢
        exact ih
      · have hi : indexOf (e :: l) text = indexOf l text + 1 := by
          simp [indexOf, he, h1]
        have hnat : (indexOf l text + 1).toNat = (indexOf l text).toNat + 1 := by omega
        simp only [ge_iff_le, h1, if_true] at ih
        unfold removeAt at ih ⊢
        simp only [h1, h2, and_self, if_true] at ih
        have hb : 0 ≤ indexOf l text + 1 ∧ indexOf l text + 1 < ((e :: l).length : Int) := by
          simp only [List.length_cons]; push_cast; omega
        simp only [hi, ge_iff_le, hb.1, hb, and_self, if_true, hnat, List.eraseIdx_cons_succ, ih]
        simp

theorem removeAt_zero (l : QStringList) : removeAt l 0 = l.tail := by
  unfold removeAt
  cases l with
  | nil => simp
  | cons a t => simp

/-- History after `appendMessageHistory` with a text that is not blank. -/
theorem history_append (MAX : Nat) (tr : QCharTraits) (text : QString) (s : ChatEdit)
    (hx : simplifiedIsEmpty tr text = false) :
    (appendMessageHistory MAX tr text s).typedMsgsHistory =
      (if MAX ≤ (s.typedMsgsHistory.erase text).length then (s.typedMsgsHistory.erase text).tail
        else s.typedMsgsHistory.erase text) ++ [text] := by
  have key := removeAt_indexOf s.typedMsgsHistory text
  unfold appendMessageHistory
  simp only [hx, Bool.not_false, if_true]
  by_cases hc : s.currentText = text
  · simp only [hc, if_true, key, removeAt_zero, ge_iff_le, Nat.cast_le]
  · simp only [hc, if_false, key, removeAt_zero, ge_iff_le, Nat.cast_le]

/-- Index after `appendMessageHistory` with a text that is not blank. -/
theorem index_append (MAX : Nat) (tr : QCharTraits) (text : QString) (s : ChatEdit)
    (hx : simplifiedIsEmpty tr text = false) :
    (appendMessageHistory MAX tr text s).typedMsgsIndex =
      ((appendMessageHistory MAX tr text s).typedMsgsHistory.length : Int) := by
  unfold appendMessageHistory
  simp only [hx, Bool.not_false, if_true]

theorem append_blank (MAX : Nat) (tr : QCharTraits) (text : QString) (s : ChatEdit)
    (hx : simplifiedIsEmpty tr text = true) :
    appendMessageHistory MAX tr text s = s := by
  unfold appendMessageHistory
  simp [hx]

/-! ## The history list under `appendMessageHistory` -/

theorem append_keeps_bounds (MAX : Nat) (tr : QCharTraits) (hMAX : 0 < MAX) (text : QString)
    (s : ChatEdit) (hl : s.typedMsgsHistory.length ≤ MAX) :
    (appendMessageHistory MAX tr text s).typedMsgsHistory.length ≤ MAX := by
  cases hx : simplifiedIsEmpty tr text with
  | true => rw [append_blank MAX tr text s hx]; exact hl
  | false =>
    rw [history_append MAX tr text s hx]
    have h1 : (s.typedMsgsHistory.erase text).length ≤ s.typedMsgsHistory.length :=
      (List.erase_sublist text s.typedMsgsHistory).length_le
    by_cases hc : MAX ≤ (s.typedMsgsHistory.erase text).length
    · simp only [hc, if_true, List.length_append, List.length_tail, List.length_singleton]
      omega
    · simp only [hc, if_false, List.length_append, List.length_singleton]
      omega

theorem append_keeps_nodup (MAX : Nat) (tr : QCharTraits) (text : QString)
    (s : ChatEdit) (hn : s.typedMsgsHistory.Nodup) :
    (appendMessageHistory MAX tr text s).typedMsgsHistory.Nodup := by
  cases hx : simplifiedIsEmpty tr text with
  | true => rw [append_blank MAX tr text s hx]; exact hn
  | false =>
    rw [history_append MAX tr text s hx]
    have hne : (s.typedMsgsHistory.erase text).Nodup := hn.erase text
    have hnot : text ∉ s.typedMsgsHistory.erase text := hn.not_mem_erase
    by_cases hc : MAX ≤ (s.typedMsgsHistory.erase text).length
    · simp only [hc, if_true]
      have hsub : (s.typedMsgsHistory.erase text).tail.Sublist (s.typedMsgsHistory.erase text) :=
        List.tail_sublist _
      have hnt : text ∉ (s.typedMsgsHistory.erase text).tail := fun h => hnot (hsub.subset h)
      rw [List.nodup_append]
      refine ⟨hne.sublist hsub, List.nodup_singleton _, ?_⟩
      intro a ha hb
      rw [List.mem_singleton] at hb
      exact hnt (hb ▸ ha)
    · simp only [hc, if_false]
      rw [List.nodup_append]
      refine ⟨hne, List.nodup_singleton _, ?_⟩
      intro a ha hb
      rw [List.mem_singleton] at hb
      exact hnot (hb ▸ ha)

theorem recordAll_keeps (MAX : Nat) (tr : QCharTraits) (hMAX : 0 < MAX) (texts : List QString) :
    ∀ s : ChatEdit, s.typedMsgsHistory.length ≤ MAX → s.typedMsgsHistory.Nodup →
      (recordAll MAX tr texts s).typedMsgsHistory.length ≤ MAX ∧
      (recordAll MAX tr texts s).typedMsgsHistory.Nodup := by
  induction texts with
  | nil => intro s hl hn; exact ⟨hl, hn⟩
  | cons t ts ih =>
    intro s hl hn
    exact ih (appendMessageHistory MAX tr t s) (append_keeps_bounds MAX tr hMAX t s hl)
      (append_keeps_nodup MAX tr t s hn)

/-- C1: starting from an empty history, after any sequence of
`appendMessageHistory` (`recordSent`) calls the history holds at most
`MAX_MESSAGE_HISTORY` entries and no two of its entries are equal.  The
capacity is any positive number. -/
theorem history_bounded_and_distinct (MAX : Nat) (tr : QCharTraits) (hMAX : 0 < MAX)
    (texts : List QString) (s : ChatEdit) (h0 : s.typedMsgsHistory = []) :
    (recordAll MAX tr texts s).typedMsgsHistory.length ≤ MAX ∧
    (recordAll MAX tr texts s).typedMsgsHistory.Nodup := by
  apply recordAll_keeps MAX tr hMAX texts s
  · rw [h0]; exact Nat.zero_le _
  · rw [h0]; exact List.nodup_nil

theorem history_bounded_and_distinct_witness :
    0 < 2 ∧ ChatEdit.init.typedMsgsHistory = [] ∧
    (recordAll 2 asciiTraits ["a".toList, "b".toList, "a".toList, "c".toList]
        ChatEdit.init).typedMsgsHistory.length ≤ 2 ∧
    (recordAll 2 asciiTraits ["a".toList, "b".toList, "a".toList, "c".toList]
        ChatEdit.init).typedMsgsHistory.Nodup :=
  ⟨by decide, rfl, history_bounded_and_distinct 2 asciiTraits (by decide) _ ChatEdit.init rfl⟩

/-! ## Navigation, case by case -/

theorem isEmpty_false_iff (l : QStringList) : (!l.isEmpty) = true ↔ 0 < l.length := by
  cases l <;> simp

theorem showMessageHistory_eq (s : ChatEdit) (h0 : 0 ≤ s.typedMsgsIndex)
    (h1 : s.typedMsgsIndex < s.size) :
    showMessageHistory s =
      some { s with plainText := s.typedMsgsHistory.getD s.typedMsgsIndex.toNat [] } := by
  have hlt : s.typedMsgsIndex.toNat < s.typedMsgsHistory.length := by
    unfold ChatEdit.size at h1; omega
  unfold showMessageHistory setEditText
  rw [if_pos h0, List.get?_eq_get hlt, List.getD_eq_getElem _ _ hlt]
  rfl

/-- `showHistoryMessagePrev` at the live draft: the buffer is saved, `correction` is
set and the newest entry is shown. -/
theorem prev_live (h : QStringList) (i : Int) (ct : QString) (c : Bool) (pt : QString)
    (hne : 0 < h.length) (hi : i = (h.length : Int)) :
    showHistoryMessagePrev ⟨h, i, ct, c, pt⟩ =
      some ⟨h, i - 1, pt, true, h.getD (i - 1).toNat []⟩ := by
  subst hi
  have e1 : ¬ ((h.length : Int) = (h.length : Int) - 1) := by omega
  have e2 : (0 : Int) < (h.length : Int) := by omega
  simp only [showHistoryMessagePrev, ChatEdit.size, isEmpty_false_iff, hne, e1, e2, if_true,
    if_false, gt_iff_lt, true_or, and_self, false_and, true_and]
  rw [showMessageHistory_eq _ (by simp only []; omega) (by simp only [ChatEdit.size]; omega)]

/-- `showHistoryMessagePrev` on the newest entry with `correction` set: the flag is
cleared and the newest entry is shown again. -/
theorem prev_bump (h : QStringList) (i : Int) (ct : QString) (pt : QString)
    (h0 : 0 ≤ i) (hi : i + 1 = (h.length : Int)) :
    showHistoryMessagePrev ⟨h, i, ct, true, pt⟩ =
      some ⟨h, i, ct, false, h.getD i.toNat []⟩ := by
  have hne : 0 < h.length := by omega
  have e1 : ¬ (i = (h.length : Int)) := by omega
  have e2 : (i = (h.length : Int) - 1) = True := eq_true (by omega)
  simp only [showHistoryMessagePrev, ChatEdit.size, isEmpty_false_iff, hne, e1, e2, if_true,
    if_false, gt_iff_lt, or_true, and_self, true_and]
  rw [showMessageHistory_eq _ (by simp only []; omega) (by simp only [ChatEdit.size]; omega)]
  simp

/-- `showHistoryMessagePrev` inside the history with `correction` clear: one step
towards index 0. -/
theorem prev_down (h : QStringList) (i : Int) (ct : QString) (pt : QString)
    (h0 : 0 < i) (hi : i < (h.length : Int)) :
    showHistoryMessagePrev ⟨h, i, ct, false, pt⟩ =
      some ⟨h, i - 1, ct, false, h.getD (i - 1).toNat []⟩ := by
  have hne : 0 < h.length := by omega
  have e1 : ¬ (i = (h.length : Int)) := by omega
  simp only [showHistoryMessagePrev, ChatEdit.size, isEmpty_false_iff, hne, e1, h0, if_true,
    if_false, gt_iff_lt, true_or, and_self, true_and, and_false, Bool.false_eq_true]
  rw [showMessageHistory_eq _ (by simp only []; omega) (by simp only [ChatEdit.size]; omega)]

/-- `showHistoryMessagePrev` at index 0 with `correction` clear, or on an empty
history: nothing happens. -/
theorem prev_stop (h : QStringList) (i : Int) (ct : QString) (c : Bool) (pt : QString)
    (hstop : h = [] ∨ (i ≤ 0 ∧ c = false)) :
    showHistoryMessagePrev ⟨h, i, ct, c, pt⟩ = some ⟨h, i, ct, c, pt⟩ := by
  rcases hstop with rfl | ⟨hi, rfl⟩
  · simp [showHistoryMessagePrev]
  · have e : ¬ (0 < i) := by omega
    simp [showHistoryMessagePrev, e]

/-- `showHistoryMessageNext` with a newer entry ahead: one step towards the
newest entry. -/
theorem next_up (h : QStringList) (i : Int) (ct : QString) (c : Bool) (pt : QString)
    (h0 : 0 ≤ i + 1) (hi : i + 1 < (h.length : Int)) :
    showHistoryMessageNext ⟨h, i, ct, c, pt⟩ =
      some ⟨h, i + 1, ct, false, h.getD (i + 1).toNat []⟩ := by
  have hne : 0 < h.length := by omega
  simp only [showHistoryMessageNext, ChatEdit.size, isEmpty_false_iff, hne, hi, if_true]
  rw [showMessageHistory_eq _ (by simp only []; omega) (by simp only [ChatEdit.size]; omega)]

/-- `showHistoryMessageNext` on the newest entry: back to the live draft, the
saved text is restored. -/
theorem next_restore (h : QStringList) (i : Int) (ct : QString) (c : Bool) (pt : QString)
    (hne : 0 < h.length) (hi : ¬ (i + 1 < (h.length : Int))) (hd : i ≠ (h.length : Int)) :
    showHistoryMessageNext ⟨h, i, ct, c, pt⟩ = some ⟨h, (h.length : Int), ct, false, ct⟩ := by
  simp only [showHistoryMessageNext, ChatEdit.size, isEmpty_false_iff, hne, hi, hd, if_true,
    if_false, setEditText, ne_eq, not_false_eq_true]

/-- `showHistoryMessageNext` at the live draft, or on an empty history: only
`correction` is cleared. -/
theorem next_stay (h : QStringList) (i : Int) (ct : QString) (c : Bool) (pt : QString)
    (hs : h = [] ∨ i = (h.length : Int)) :
    showHistoryMessageNext ⟨h, i, ct, c, pt⟩ = some ⟨h, i, ct, false, pt⟩ := by
  rcases hs with rfl | rfl
  · simp [showHistoryMessageNext]
  · simp [showHistoryMessageNext, ChatEdit.size]

/-- `showHistoryMessageLast` on a history that is not empty. -/
theorem last_show (h : QStringList) (i : Int) (ct : QString) (c : Bool) (pt : QString)
    (hne : 0 < h.length) :
    showHistoryMessageLast ⟨h, i, ct, c, pt⟩ = some ⟨h, 0, ct, false, h.getD 0 []⟩ := by
  simp only [showHistoryMessageLast, isEmpty_false_iff, hne, if_true]
  rw [showMessageHistory_eq _ (by simp only []; omega) (by simp only [ChatEdit.size]; omega)]
  simp

/-- `showHistoryMessageFirst` on a history that is not empty. -/
theorem first_show (h : QStringList) (i : Int) (ct : QString) (c : Bool) (pt : QString)
    (hne : 0 < h.length) :
    showHistoryMessageFirst ⟨h, i, ct, c, pt⟩ =
      if ct = [] then some ⟨h, (h.length : Int) - 1, ct, false, h.getD (h.length - 1) []⟩
      else some ⟨h, (h.length : Int), ct, false, ct⟩ := by
  by_cases hct : ct = []
  · subst hct
    simp only [showHistoryMessageFirst, isEmpty_false_iff, hne, if_true, List.isEmpty_nil,
      ChatEdit.size]
    rw [showMessageHistory_eq _ (by simp only []; omega) (by simp only [ChatEdit.size]; omega)]
    have : ((h.length : Int) - 1).toNat = h.length - 1 := by omega
    simp [this]
  · have he : ct.isEmpty = false := by cases ct <;> simp at hct ⊢
    simp only [showHistoryMessageFirst, isEmpty_false_iff, hne, he, hct, setEditText,
      ChatEdit.size, if_true, if_false, Bool.false_eq_true]

theorem first_last_empty (i : Int) (ct : QString) (c : Bool) (pt : QString) :
    showHistoryMessageFirst ⟨[], i, ct, c, pt⟩ = some ⟨[], i, ct, false, pt⟩ ∧
    showHistoryMessageLast ⟨[], i, ct, c, pt⟩ = some ⟨[], i, ct, false, pt⟩ := by
  simp [showHistoryMessageFirst, showHistoryMessageLast]

/-! ## The index stays in range -/

theorem prev_keeps (s : ChatEdit) (hinv : Inv s) :
    ∃ t, showHistoryMessagePrev s = some t ∧ Inv t := by
  obtain ⟨h, i, ct, c, pt⟩ := s
  obtain ⟨h0, h1, h2⟩ := hinv
  simp only [ChatEdit.size] at h0 h1 h2
  by_cases hne : 0 < h.length
  · by_cases hi : i = (h.length : Int)
    · exact ⟨_, prev_live h i ct c pt hne hi, by simp only [Inv, ChatEdit.size]; omega⟩
    · cases c with
      | true =>
        have hi1 : i + 1 = (h.length : Int) := by
          rcases h2 rfl with h | h
          · exact absurd h hi
          · exact h
        exact ⟨_, prev_bump h i ct pt h0 hi1, by simp [Inv, ChatEdit.size]; omega⟩
      | false =>
        by_cases hz : 0 < i
        · exact ⟨_, prev_down h i ct pt hz (by omega), by simp [Inv, ChatEdit.size]; omega⟩
        · exact ⟨_, prev_stop h i ct false pt (Or.inr ⟨by omega, rfl⟩),
            by simp [Inv, ChatEdit.size]; omega⟩
  · have hnil : h = [] := List.length_eq_zero.mp (by omega)
    exact ⟨_, prev_stop h i ct c pt (Or.inl hnil), ⟨h0, h1, h2⟩⟩

theorem next_keeps (s : ChatEdit) (hinv : Inv s) :
    ∃ t, showHistoryMessageNext s = some t ∧ Inv t := by
  obtain ⟨h, i, ct, c, pt⟩ := s
  obtain ⟨h0, h1, _⟩ := hinv
  simp only [ChatEdit.size] at h0 h1
  by_cases hup : i + 1 < (h.length : Int)
  · exact ⟨_, next_up h i ct c pt (by omega) hup, by simp [Inv, ChatEdit.size]; omega⟩
  · by_cases hi : i = (h.length : Int)
    · exact ⟨_, next_stay h i ct c pt (Or.inr hi), by simp [Inv, ChatEdit.size]; omega⟩
    · exact ⟨_, next_restore h i ct c pt (by omega) hup hi, by simp [Inv, ChatEdit.size]⟩

theorem first_keeps (s : ChatEdit) (hinv : Inv s) :
    ∃ t, showHistoryMessageFirst s = some t ∧ Inv t := by
  obtain ⟨h, i, ct, c, pt⟩ := s
  obtain ⟨h0, h1, _⟩ := hinv
  simp only [ChatEdit.size] at h0 h1
  by_cases hne : 0 < h.length
  · rw [first_show h i ct c pt hne]
    by_cases hct : ct = []
    · exact ⟨_, if_pos hct, by simp [Inv, ChatEdit.size]; omega⟩
    · exact ⟨_, if_neg hct, by simp [Inv, ChatEdit.size]⟩
  · have hnil : h = [] := List.length_eq_zero.mp (by omega)
    subst hnil
    exact ⟨_, (first_last_empty i ct c pt).1, by simp [Inv, ChatEdit.size] at h0 h1 ⊢; omega⟩

theorem last_keeps (s : ChatEdit) (hinv : Inv s) :
    ∃ t, showHistoryMessageLast s = some t ∧ Inv t := by
  obtain ⟨h, i, ct, c, pt⟩ := s
  obtain ⟨h0, h1, _⟩ := hinv
  simp only [ChatEdit.size] at h0 h1
  by_cases hne : 0 < h.length
  · exact ⟨_, last_show h i ct c pt hne, by simp [Inv, ChatEdit.size]⟩
  · have hnil : h = [] := List.length_eq_zero.mp (by omega)
    subst hnil
    exact ⟨_, (first_last_empty i ct c pt).2, by simp [Inv, ChatEdit.size] at h0 h1 ⊢; omega⟩

theorem append_keeps_inv (MAX : Nat) (tr : QCharTraits) (text : QString) (s : ChatEdit)
    (hinv : Inv s) : Inv (appendMessageHistory MAX tr text s) := by
  cases hx : simplifiedIsEmpty tr text with
  | true => rw [append_blank MAX tr text s hx]; exact hinv
  | false =>
    have hi := index_append MAX tr text s hx
    refine ⟨?_, ?_, ?_⟩
    · rw [hi]; exact Int.ofNat_nonneg _
    · rw [hi]; exact le_refl _
    · intro _; left; rw [hi]; rfl

theorem step_keeps (MAX : Nat) (tr : QCharTraits) (op : Op) (s : ChatEdit) (hinv : Inv s) :
    ∃ t, step MAX tr s op = some t ∧ Inv t := by
  cases op with
  | recordSent text => exact ⟨_, rfl, append_keeps_inv MAX tr text s hinv⟩
  | showPrevious => exact prev_keeps s hinv
  | showNext => exact next_keeps s hinv
  | showFirst => exact first_keeps s hinv
  | showLast => exact last_keeps s hinv
  | clear => exact ⟨_, rfl, by simp [Inv, clearMessageHistory, ChatEdit.size]⟩
  | typed b => exact ⟨_, rfl, hinv⟩

theorem run_keeps (MAX : Nat) (tr : QCharTraits) (ops : List Op) :
    ∀ s : ChatEdit, Inv s → ∃ t, run MAX tr ops s = some t ∧ Inv t := by
  induction ops with
  | nil => intro s hinv; exact ⟨s, rfl, hinv⟩
  | cons op ops ih =>
    intro s hinv
    obtain ⟨s1, hs1, hinv1⟩ := step_keeps MAX tr op s hinv
    obtain ⟨t, ht, hinvt⟩ := ih s1 hinv1
    exact ⟨t, by simp only [run, hs1, ht], hinvt⟩

/-- C2: from the initial state, any sequence of `recordSent`, `showPrevious`,
`showNext`, `showFirst`, `showLast` and `clear` (and of buffer edits) runs
without ever reading the history outside `[0, size())`, and ends in a state
whose index satisfies `0 <= typedMsgsIndex <= size()`. -/
theorem index_always_in_range (MAX : Nat) (tr : QCharTraits) (ops : List Op) :
    ∃ t, run MAX tr ops ChatEdit.init = some t ∧
      0 ≤ t.typedMsgsIndex ∧ t.typedMsgsIndex ≤ t.size := by
  obtain ⟨t, ht, h0, h1, _⟩ := run_keeps MAX tr ops ChatEdit.init
    (by simp [Inv, ChatEdit.init, ChatEdit.size])
  exact ⟨t, ht, h0, h1⟩

/-! ## Walking through the history -/

theorem run_append (MAX : Nat) (tr : QCharTraits) (a b : List Op) :
    ∀ s : ChatEdit, run MAX tr (a ++ b) s = (run MAX tr a s).bind (run MAX tr b) := by
  induction a with
  | nil => intro s; rfl
  | cons op a ih =>
    intro s
    simp only [List.cons_append, run]
    cases step MAX tr s op with
    | none => rfl
    | some s1 => exact ih s1

theorem run_single (MAX : Nat) (tr : QCharTraits) (op : Op) (s : ChatEdit) :
    run MAX tr [op] s = step MAX tr s op := by
  simp only [run]
  cases step MAX tr s op <;> rfl

/-- From the live draft, `j + 2` calls of `showHistoryMessagePrev` end on the entry
`j` places before the newest one (on the oldest entry when there are not that
many), with the draft saved and `correction` clear. -/
theorem prev_iter (MAX : Nat) (tr : QCharTraits) (h : QStringList) (ct : QString) (c : Bool)
    (pt : QString) (hne : 0 < h.length) (j : Nat) :
    run MAX tr (List.replicate (j + 2) Op.showPrevious) ⟨h, (h.length : Int), ct, c, pt⟩ =
      some ⟨h, ((h.length - 1 - j : Nat) : Int), pt, false, h.getD (h.length - 1 - j) []⟩ := by
  induction j with
  | zero =>
    simp only [List.replicate, run, step]
    rw [prev_live h _ ct c pt hne rfl]
    simp only []
    rw [prev_bump h _ pt _ (by omega) (by omega)]
    have e1 : ((h.length : Int) - 1) = ((h.length - 1 - 0 : Nat) : Int) := by omega
    have e2 : ((h.length : Int) - 1).toNat = h.length - 1 - 0 := by omega
    simp only [e2]
    rw [e1]
  | succ j ih =>
    rw [show j + 1 + 2 = (j + 2) + 1 from rfl, List.replicate_succ', run_append, ih]
    simp only [Option.bind, run_single, step]
    by_cases hz : 0 < h.length - 1 - j
    · rw [prev_down h _ pt _ (by omega) (by omega)]
      have e1 : (((h.length - 1 - j : Nat) : Int) - 1) = ((h.length - 1 - (j + 1) : Nat) : Int) := by
        omega
      have e2 : (((h.length - 1 - j : Nat) : Int) - 1).toNat = h.length - 1 - (j + 1) := by omega
      simp only [e2]
      rw [e1]
    · rw [prev_stop h _ pt false _ (Or.inr ⟨by omega, rfl⟩)]
      have e1 : h.length - 1 - (j + 1) = h.length - 1 - j := by omega
      rw [e1]

theorem next_done_iter (MAX : Nat) (tr : QCharTraits) (h : QStringList) (D : QString) (k : Nat) :
    run MAX tr (List.replicate k Op.showNext) ⟨h, (h.length : Int), D, false, D⟩ =
      some ⟨h, (h.length : Int), D, false, D⟩ := by
  induction k with
  | zero => rfl
  | succ k ih =>
    simp only [List.replicate, run, step]
    rw [next_stay h _ D false D (Or.inr rfl)]
    exact ih

/-- Enough calls of `showHistoryMessageNext` lead from any entry back to the live
draft, with the saved text in the buffer. -/
theorem next_iter (MAX : Nat) (tr : QCharTraits) (h : QStringList) (D : QString) (k : Nat) :
    ∀ (i : Nat) (c : Bool) (pt : QString), i < h.length → h.length - i ≤ k →
      run MAX tr (List.replicate k Op.showNext) ⟨h, (i : Int), D, c, pt⟩ =
        some ⟨h, (h.length : Int), D, false, D⟩ := by
  induction k with
  | zero => intro i c pt hi hk; omega
  | succ k ih =>
    intro i c pt hi hk
    simp only [List.replicate, run, step]
    by_cases hup : ((i : Int) + 1 < (h.length : Int))
    · rw [next_up h _ D c pt (by omega) hup]
      have e : ((i : Int) + 1) = ((i + 1 : Nat) : Int) := by omega
      simp only []
      rw [e]
      exact ih (i + 1) false _ (by omega) (by omega)
    · rw [next_restore h _ D c pt (by omega) hup (by omega)]
      exact next_done_iter MAX tr h D k

/-- C3: after `recordSent(X)` with `X` not blank, and with any text `B` in the
buffer, one `showPrevious` puts exactly `X` in the buffer, and a `showNext`
right after puts `B` back and leaves the index at `size()`. -/
theorem sent_prev_next (MAX : Nat) (tr : QCharTraits) (s : ChatEdit) (X B : QString)
    (hX : simplifiedIsEmpty tr X = false) :
    ∃ t u, run MAX tr [Op.recordSent X, Op.typed B, Op.showPrevious] s = some t ∧
      t.plainText = X ∧
      showHistoryMessageNext t = some u ∧ u.plainText = B ∧ u.typedMsgsIndex = u.size := by
  have hh := history_append MAX tr X s hX
  have hi := index_append MAX tr X s hX
  simp only [run, step]
  generalize appendMessageHistory MAX tr X s = s1 at hh hi ⊢
  obtain ⟨h, i, ct, c, pt⟩ := s1
  simp only at hh hi
  generalize (if MAX ≤ (s.typedMsgsHistory.erase X).length then (s.typedMsgsHistory.erase X).tail
    else s.typedMsgsHistory.erase X) = pre at hh
  have hlen : h.length = pre.length + 1 := by rw [hh]; simp
  have hget : h.getD (i - 1).toNat [] = X := by
    have : (i - 1).toNat = pre.length := by omega
    rw [this, hh]
    simp
  refine ⟨⟨h, i - 1, B, true, X⟩, ⟨h, (h.length : Int), B, false, B⟩, ?_, rfl, ?_, rfl, rfl⟩
  · rw [prev_live h i ct c B (by omega) hi, hget]
  · exact next_restore h _ B true X (by omega) (by omega) (by omega)

theorem sent_prev_next_witness :
    simplifiedIsEmpty asciiTraits "hello".toList = false ∧
    ∃ t u, run 50 asciiTraits
        [Op.recordSent "hello".toList, Op.typed "draft".toList, Op.showPrevious]
        ChatEdit.init = some t ∧
      t.plainText = "hello".toList ∧
      showHistoryMessageNext t = some u ∧ u.plainText = "draft".toList ∧
      u.typedMsgsIndex = u.size :=
  ⟨by decide, sent_prev_next 50 asciiTraits ChatEdit.init "hello".toList "draft".toList
    (by decide)⟩

/-- C4, as stated, fails: after `recordSent("hi")`, `recordSent("there")` and
with the draft "new msg" in the buffer, the second `showPrevious` shows
"there" again and not "hi", and the `showNext` after it brings the draft back
instead of showing "there". -/
theorem second_previous_repeats_newest :
    (run 50 asciiTraits
        [Op.recordSent "hi".toList, Op.recordSent "there".toList, Op.typed "new msg".toList,
          Op.showPrevious, Op.showPrevious] ChatEdit.init).map ChatEdit.plainText
      = some "there".toList ∧
    (run 50 asciiTraits
        [Op.recordSent "hi".toList, Op.recordSent "there".toList, Op.typed "new msg".toList,
          Op.showPrevious, Op.showPrevious] ChatEdit.init).map ChatEdit.plainText
      ≠ some "hi".toList ∧
    (run 50 asciiTraits
        [Op.recordSent "hi".toList, Op.recordSent "there".toList, Op.typed "new msg".toList,
          Op.showPrevious, Op.showPrevious, Op.showNext] ChatEdit.init).map ChatEdit.plainText
      ≠ some "there".toList := by
  decide

theorem scenario_start (MAX : Nat) (hMAX : 2 ≤ MAX) :
    run MAX asciiTraits
      [Op.recordSent "hi".toList, Op.recordSent "there".toList, Op.typed "new msg".toList]
      ChatEdit.init =
    some ⟨["hi".toList, "there".toList], 2, [], false, "new msg".toList⟩ := by
  have b1 : simplifiedIsEmpty asciiTraits "hi".toList = false := by decide
  have b2 : simplifiedIsEmpty asciiTraits "there".toList = false := by decide
  have n1 : ¬ ((MAX : Int) ≤ 0) := by omega
  have n2 : ¬ ((MAX : Int) ≤ 1) := by omega
  have a1 : appendMessageHistory MAX asciiTraits "hi".toList ChatEdit.init =
      ⟨["hi".toList], 1, [], false, []⟩ := by
    unfold appendMessageHistory
    rw [b1]
    simp [ChatEdit.init, indexOf, removeAt, n1]
  have a2 : appendMessageHistory MAX asciiTraits "there".toList
      ⟨["hi".toList], 1, [], false, []⟩ =
      ⟨["hi".toList, "there".toList], 2, [], false, []⟩ := by
    unfold appendMessageHistory
    rw [b2]
    simp [indexOf, removeAt, n2]
  simp only [run, step, a1, a2]

/-- C4, amended: after `recordSent("hi")`, `recordSent("there")` and with the
draft "new msg" in the buffer, the first `showPrevious` shows "there", saves
the draft and sets `correction`; the second shows "there" again and only
clears `correction`; the third shows "hi"; the `showNext` after it shows
"there"; and one more `showNext` shows "new msg" with the index at `size()`.
Each state is given in full (history, index, saved draft, `correction`,
buffer).  More generally, from the live draft the first `showPrevious` saves
the buffer, sets `correction` and shows the newest entry, the second changes
nothing but `correction`, which it clears, and `j + 2` calls show the entry
`j` places before the newest one with `correction` clear. -/
theorem previous_walks_back (MAX : Nat) (hMAX : 2 ≤ MAX) :
    (∃ s0, run MAX asciiTraits
        [Op.recordSent "hi".toList, Op.recordSent "there".toList, Op.typed "new msg".toList]
        ChatEdit.init = some s0 ∧
      run MAX asciiTraits [Op.showPrevious] s0
        = some ⟨["hi".toList, "there".toList], 1, "new msg".toList, true, "there".toList⟩ ∧
      run MAX asciiTraits [Op.showPrevious, Op.showPrevious] s0
        = some ⟨["hi".toList, "there".toList], 1, "new msg".toList, false, "there".toList⟩ ∧
      run MAX asciiTraits [Op.showPrevious, Op.showPrevious, Op.showPrevious] s0
        = some ⟨["hi".toList, "there".toList], 0, "new msg".toList, false, "hi".toList⟩ ∧
      run MAX asciiTraits [Op.showPrevious, Op.showPrevious, Op.showPrevious, Op.showNext] s0
        = some ⟨["hi".toList, "there".toList], 1, "new msg".toList, false, "there".toList⟩ ∧
      run MAX asciiTraits
          [Op.showPrevious, Op.showPrevious, Op.showPrevious, Op.showNext, Op.showNext] s0
        = some ⟨["hi".toList, "there".toList], 2, "new msg".toList, false,
            "new msg".toList⟩) ∧
    (∀ (tr : QCharTraits) (s : ChatEdit), s.typedMsgsHistory ≠ [] → s.typedMsgsIndex = s.size →
      run MAX tr [Op.showPrevious] s =
        some { s with
          typedMsgsIndex := s.size - 1
          currentText := s.plainText
          correction := true
          plainText := s.typedMsgsHistory.getD (s.typedMsgsHistory.length - 1) [] } ∧
      run MAX tr [Op.showPrevious, Op.showPrevious] s =
        some { s with
          typedMsgsIndex := s.size - 1
          currentText := s.plainText
          correction := false
          plainText := s.typedMsgsHistory.getD (s.typedMsgsHistory.length - 1) [] } ∧
      ∀ j : Nat, j < s.typedMsgsHistory.length →
        run MAX tr (List.replicate (j + 2) Op.showPrevious) s =
          some { s with
            typedMsgsIndex := s.size - 1 - (j : Int)
            currentText := s.plainText
            correction := false
            plainText := s.typedMsgsHistory.getD (s.typedMsgsHistory.length - 1 - j) [] }) := by
  refine ⟨⟨_, scenario_start MAX hMAX, rfl, rfl, rfl, rfl, rfl⟩, ?_⟩
  intro tr s hne hi
  obtain ⟨h, i, ct, c, pt⟩ := s
  simp only [ChatEdit.size] at hi ⊢
  subst hi
  have hpos : 0 < h.length := List.length_pos.mpr hne
  have e0 : ((h.length : Int) - 1).toNat = h.length - 1 := by omega
  refine ⟨?_, ?_, ?_⟩
  · rw [run_single]
    simp only [step]
    rw [prev_live h _ ct c pt hpos rfl, e0]
  · have h2 := prev_iter MAX tr h ct c pt hpos 0
    have e1 : ((h.length - 1 - 0 : Nat) : Int) = (h.length : Int) - 1 := by omega
    simp only [List.replicate] at h2
    rw [h2, e1]
    rfl
  · intro j hj
    have e1 : ((h.length - 1 - j : Nat) : Int) = (h.length : Int) - 1 - (j : Int) := by omega
    rw [prev_iter MAX tr h ct c pt hpos j, e1]

theorem previous_walks_back_witness :
    2 ≤ 2 ∧
    run 2 asciiTraits
        [Op.recordSent "hi".toList, Op.recordSent "there".toList, Op.typed "new msg".toList,
          Op.showPrevious, Op.showPrevious]
        ChatEdit.init
      = some ⟨["hi".toList, "there".toList], 1, "new msg".toList, false, "there".toList⟩ := by
  refine ⟨le_refl 2, ?_⟩
  obtain ⟨⟨s0, h0, _, h2, _⟩, _⟩ := previous_walks_back 2 (le_refl 2)
  have := run_append 2 asciiTraits
    [Op.recordSent "hi".toList, Op.recordSent "there".toList, Op.typed "new msg".toList]
    [Op.showPrevious, Op.showPrevious] ChatEdit.init
  rw [h0] at this
  simp only [List.cons_append, List.nil_append, Option.bind] at this
  rw [this]
  exact h2

/-- C5: with a history that is not empty and the index at the live draft,
`k >= 1` calls of `showPrevious` followed by `k` calls of `showNext` leave the
buffer as it was, the index at `size()` and the history unchanged. -/
theorem draft_round_trip (MAX : Nat) (tr : QCharTraits) (s : ChatEdit) (k : Nat)
    (hne : s.typedMsgsHistory ≠ []) (hi : s.typedMsgsIndex = s.size) (hk : 1 ≤ k) :
    ∃ t, run MAX tr (List.replicate k Op.showPrevious ++ List.replicate k Op.showNext) s
        = some t ∧
      t.plainText = s.plainText ∧ t.typedMsgsIndex = t.size ∧
      t.typedMsgsHistory = s.typedMsgsHistory := by
  obtain ⟨h, i, ct, c, pt⟩ := s
  simp only [ChatEdit.size] at hi ⊢
  subst hi
  have hpos : 0 < h.length := List.length_pos.mpr hne
  refine ⟨⟨h, (h.length : Int), pt, false, pt⟩, ?_, rfl, rfl, rfl⟩
  rw [run_append]
  obtain ⟨j, rfl⟩ : ∃ j, k = j + 1 := ⟨k - 1, by omega⟩
  cases j with
  | zero =>
    have e : ((h.length : Int) - 1) = ((h.length - 1 : Nat) : Int) := by omega
    simp only [List.replicate, run_single, step, zero_add]
    rw [prev_live h _ ct c pt hpos rfl, e]
    simp only [Option.bind]
    exact next_restore h _ pt true _ hpos (by omega) (by omega)
  | succ j =>
    rw [prev_iter MAX tr h ct c pt hpos j]
    simp only [Option.bind]
    exact next_iter MAX tr h pt (j + 1 + 1) (h.length - 1 - j) false _ (by omega) (by omega)

theorem draft_round_trip_witness :
    (⟨["hi".toList, "there".toList], 2, [], false, "new msg".toList⟩ : ChatEdit).typedMsgsHistory
      ≠ [] ∧ 1 ≤ 3 ∧
    ∃ t, run 50 asciiTraits
        (List.replicate 3 Op.showPrevious ++ List.replicate 3 Op.showNext)
        ⟨["hi".toList, "there".toList], 2, [], false, "new msg".toList⟩ = some t ∧
      t.plainText = "new msg".toList ∧ t.typedMsgsIndex = t.size ∧
      t.typedMsgsHistory = ["hi".toList, "there".toList] :=
  ⟨by decide, by decide,
    draft_round_trip 50 asciiTraits
      ⟨["hi".toList, "there".toList], 2, [], false, "new msg".toList⟩ 3 (by decide) rfl
      (by decide)⟩

/-- C9, as stated, fails on a history with one entry: the first `showPrevious`
already brings the index to 0, the oldest index, with `correction` set, and
one more `showPrevious` clears `correction`. -/
theorem extra_previous_clears_correction :
    run 50 asciiTraits [Op.recordSent "hi".toList, Op.typed "draft".toList, Op.showPrevious]
        ChatEdit.init
      = some ⟨["hi".toList], 0, "draft".toList, true, "hi".toList⟩ ∧
    showHistoryMessagePrev ⟨["hi".toList], 0, "draft".toList, true, "hi".toList⟩
      = some ⟨["hi".toList], 0, "draft".toList, false, "hi".toList⟩ ∧
    (⟨["hi".toList], 0, "draft".toList, false, "hi".toList⟩ : ChatEdit).correction
      ≠ (⟨["hi".toList], 0, "draft".toList, true, "hi".toList⟩ : ChatEdit).correction := by
  decide

/-- C9, amended: with a history that is not empty and the index at the live
draft, let `k >= 1` calls of `showPrevious` have brought the index to 0.  One
more `showPrevious` leaves the index, the buffer, the saved draft and the
history unchanged and leaves `correction` clear; `correction` was still set
before that call only when the history has a single entry and `k = 1`, so in
every other case the call changes nothing at all.  After more than `size()`
calls the index is 0. -/
theorem previous_clamps_at_oldest (MAX : Nat) (tr : QCharTraits) (s : ChatEdit) (k : Nat)
    (hne : s.typedMsgsHistory ≠ []) (hi : s.typedMsgsIndex = s.size) (hk : 1 ≤ k) :
    ∃ sk, run MAX tr (List.replicate k Op.showPrevious) s = some sk ∧
      (s.typedMsgsHistory.length < k → sk.typedMsgsIndex = 0) ∧
      (sk.typedMsgsIndex = 0 →
        showHistoryMessagePrev sk = some { sk with correction := false } ∧
        (sk.correction = true ↔ (s.typedMsgsHistory.length = 1 ∧ k = 1))) := by
  obtain ⟨h, i, ct, c, pt⟩ := s
  simp only [ChatEdit.size] at hi ⊢
  subst hi
  have hpos : 0 < h.length := List.length_pos.mpr hne
  obtain ⟨j, rfl⟩ : ∃ j, k = j + 1 := ⟨k - 1, by omega⟩
  cases j with
  | zero =>
    refine ⟨_, by rw [show List.replicate (0 + 1) Op.showPrevious = [Op.showPrevious] from rfl,
      run_single]; exact prev_live h _ ct c pt hpos rfl, ?_, ?_⟩
    · intro hlt; omega
    · intro hz
      simp only at hz
      refine ⟨?_, ?_⟩
      · rw [prev_bump h _ pt _ (by omega) (by omega)]
      · simp; omega
  | succ j =>
    refine ⟨_, prev_iter MAX tr h ct c pt hpos j, ?_, ?_⟩
    · intro hlt; simp only []; omega
    · intro hz
      simp only at hz
      refine ⟨?_, by simp⟩
      exact prev_stop h _ pt false _ (Or.inr ⟨by omega, rfl⟩)

theorem previous_clamps_at_oldest_witness :
    (⟨["hi".toList, "there".toList], 2, [], false, "new msg".toList⟩ : ChatEdit).typedMsgsHistory
      ≠ [] ∧ 1 ≤ 3 ∧
    ∃ sk, run 50 asciiTraits (List.replicate 3 Op.showPrevious)
        ⟨["hi".toList, "there".toList], 2, [], false, "new msg".toList⟩ = some sk ∧
      (2 < 3 → sk.typedMsgsIndex = 0) ∧
      (sk.typedMsgsIndex = 0 →
        showHistoryMessagePrev sk = some { sk with correction := false } ∧
        (sk.correction = true ↔ (2 = 1 ∧ 3 = 1))) :=
  ⟨by decide, by decide,
    previous_clamps_at_oldest 50 asciiTraits
      ⟨["hi".toList, "there".toList], 2, [], false, "new msg".toList⟩ 3 (by decide) rfl
      (by decide)⟩

/-! ## What `appendMessageHistory` and `showHistoryMessageLast` produce -/

theorem recordAll_nodup (MAX : Nat) (tr : QCharTraits) (texts : List QString) :
    ∀ s : ChatEdit, s.typedMsgsHistory.Nodup →
      (recordAll MAX tr texts s).typedMsgsHistory.Nodup := by
  induction texts with
  | nil => intro s hn; exact hn
  | cons t ts ih =>
    intro s hn
    exact ih (appendMessageHistory MAX tr t s) (append_keeps_nodup MAX tr t s hn)

theorem head_eq_last_iff (l : QStringList) (hn : l.Nodup) (hne : l ≠ []) :
    l.head? = l.getLast? ↔ l.length = 1 := by
  cases l with
  | nil => exact absurd rfl hne
  | cons a t =>
    cases t with
    | nil => simp
    | cons b u =>
      have hmem : (b :: u).getLast (List.cons_ne_nil b u) ∈ b :: u := List.getLast_mem _
      have hnot : a ∉ b :: u := (List.nodup_cons.mp hn).1
      rw [List.getLast?_cons_cons, List.getLast?_eq_getLast _ (List.cons_ne_nil b u)]
      simp only [List.head?_cons, Option.some.injEq, List.length_cons]
      constructor
      · intro h; exact absurd (h ▸ hmem) hnot
      · intro h; omega

/-- C6, as stated, fails: after `recordSent("hi")` and `recordSent("there")`,
`showLast` puts "hi", the oldest entry, in the buffer, and not "there", the
text of the most recent `recordSent`. -/
theorem showLast_not_newest :
    (run 50 asciiTraits [Op.recordSent "hi".toList, Op.recordSent "there".toList, Op.showLast]
        ChatEdit.init).map ChatEdit.plainText = some "hi".toList ∧
    (run 50 asciiTraits [Op.recordSent "hi".toList, Op.recordSent "there".toList, Op.showLast]
        ChatEdit.init).map ChatEdit.plainText ≠ some "there".toList := by
  decide

theorem recordAll_snoc (MAX : Nat) (tr : QCharTraits) (texts : List QString) (t : QString)
    (s : ChatEdit) :
    recordAll MAX tr (texts ++ [t]) s = appendMessageHistory MAX tr t (recordAll MAX tr texts s) := by
  unfold recordAll
  rw [List.foldl_append]
  rfl

theorem exists_last_split (a : QString) (l : List QString) (h : a ∈ l) :
    ∃ l1 l2, l = l1 ++ a :: l2 ∧ a ∉ l2 := by
  induction l with
  | nil => exact absurd h (List.not_mem_nil _)
  | cons x t ih =>
    by_cases ht : a ∈ t
    · obtain ⟨l1, l2, e, hn⟩ := ih ht
      exact ⟨x :: l1, l2, by rw [e]; rfl, hn⟩
    · have hx : a = x := by
        rcases List.mem_cons.mp h with h1 | h1
        · exact h1
        · exact absurd h1 ht
      exact ⟨[], t, by rw [hx]; rfl, ht⟩

theorem SentBefore.snoc_other {texts : List QString} {a b X : QString}
    (h : SentBefore texts a b) (hne : a ≠ X) : SentBefore (texts ++ [X]) a b := by
  obtain ⟨l1, l2, e, hn, hb⟩ := h
  refine ⟨l1, l2 ++ [X], by rw [e]; simp, ?_, List.mem_append_left _ hb⟩
  intro hmem
  rcases List.mem_append.mp hmem with h1 | h1
  · exact hn h1
  · exact hne (List.mem_singleton.mp h1)

theorem SentBefore.snoc_new {texts : List QString} {a X : QString}
    (h : a ∈ texts) (hne : a ≠ X) : SentBefore (texts ++ [X]) a X := by
  obtain ⟨l1, l2, e, hn⟩ := exists_last_split a texts h
  refine ⟨l1, l2 ++ [X], by rw [e]; simp, ?_, List.mem_append_right _ (List.mem_singleton.mpr rfl)⟩
  intro hmem
  rcases List.mem_append.mp hmem with h1 | h1
  · exact hn h1
  · exact hne (List.mem_singleton.mp h1)

/-- The history built by `recordSent` calls from an empty history holds only
texts that were sent and are not blank, and holds them in the order of their
most recent send. -/
theorem recordAll_order (MAX : Nat) (tr : QCharTraits) (s : ChatEdit)
    (h0 : s.typedMsgsHistory = []) (texts : List QString) :
    (∀ e ∈ (recordAll MAX tr texts s).typedMsgsHistory,
        e ∈ texts ∧ simplifiedIsEmpty tr e = false) ∧
    (recordAll MAX tr texts s).typedMsgsHistory.Pairwise (SentBefore texts) := by
  induction texts using List.reverseRecOn with
  | nil =>
    have e : recordAll MAX tr [] s = s := rfl
    rw [e, h0]
    exact ⟨fun e he => absurd he (List.not_mem_nil _), List.Pairwise.nil⟩
  | append_singleton ts X ih =>
    obtain ⟨hmem, hpw⟩ := ih
    have hn : (recordAll MAX tr ts s).typedMsgsHistory.Nodup :=
      recordAll_nodup MAX tr ts s (by rw [h0]; exact List.nodup_nil)
    rw [recordAll_snoc]
    generalize recordAll MAX tr ts s = r at hmem hpw hn ⊢
    cases hx : simplifiedIsEmpty tr X with
    | true =>
      rw [append_blank MAX tr X r hx]
      have hneX : ∀ e ∈ r.typedMsgsHistory, e ≠ X := by
        intro e he heq
        have := (hmem e he).2
        rw [heq, hx] at this
        exact absurd this (by simp)
      refine ⟨fun e he => ⟨List.mem_append_left _ (hmem e he).1, (hmem e he).2⟩, ?_⟩
      exact hpw.imp_of_mem (fun {a b} ha _ hab => hab.snoc_other (hneX a ha))
    | false =>
      rw [history_append MAX tr X r hx]
      have hnot : X ∉ r.typedMsgsHistory.erase X := hn.not_mem_erase
      have hsub : (if MAX ≤ (r.typedMsgsHistory.erase X).length
            then (r.typedMsgsHistory.erase X).tail else r.typedMsgsHistory.erase X).Sublist
          r.typedMsgsHistory := by
        split_ifs
        · exact (List.tail_sublist _).trans (List.erase_sublist X _)
        · exact List.erase_sublist X _
      have hsub2 : (if MAX ≤ (r.typedMsgsHistory.erase X).length
            then (r.typedMsgsHistory.erase X).tail else r.typedMsgsHistory.erase X).Sublist
          (r.typedMsgsHistory.erase X) := by
        split_ifs
        · exact List.tail_sublist _
        · exact List.Sublist.refl _
      generalize (if MAX ≤ (r.typedMsgsHistory.erase X).length
            then (r.typedMsgsHistory.erase X).tail else r.typedMsgsHistory.erase X) = K
        at hsub hsub2 ⊢
      have hK : ∀ e ∈ K, e ∈ ts ∧ simplifiedIsEmpty tr e = false ∧ e ≠ X := by
        intro e he
        refine ⟨(hmem e (hsub.subset he)).1, (hmem e (hsub.subset he)).2, ?_⟩
        intro heq
        exact hnot (heq ▸ hsub2.subset he)
      refine ⟨?_, ?_⟩
      · intro e he
        rcases List.mem_append.mp he with h1 | h1
        · exact ⟨List.mem_append_left _ (hK e h1).1, (hK e h1).2.1⟩
        · rw [List.mem_singleton.mp h1]
          exact ⟨List.mem_append_right _ (List.mem_singleton.mpr rfl), hx⟩
      · rw [List.pairwise_append]
        refine ⟨?_, List.pairwise_singleton _ _, ?_⟩
        · exact (hpw.sublist hsub).imp_of_mem
            (fun {a b} ha _ hab => hab.snoc_other (hK a ha).2.2)
        · intro a ha b hb
          rw [List.mem_singleton.mp hb]
          exact SentBefore.snoc_new (hK a ha).1 (hK a ha).2.2

/-- The newest entry of a history built by `recordSent` calls from an empty
history is the text of the most recent call that was recorded. -/
theorem recordAll_getLast (MAX : Nat) (tr : QCharTraits) (s : ChatEdit)
    (h0 : s.typedMsgsHistory = []) (texts : List QString) :
    (recordAll MAX tr texts s).typedMsgsHistory.getLast? = (recorded tr texts).getLast? := by
  induction texts using List.reverseRecOn with
  | nil =>
    have e : recordAll MAX tr [] s = s := rfl
    rw [e, h0]
    rfl
  | append_singleton ts X ih =>
    rw [recordAll_snoc]
    unfold recorded at ih ⊢
    rw [List.filter_append]
    cases hx : simplifiedIsEmpty tr X with
    | true =>
      rw [append_blank MAX tr X _ hx, ih]
      simp [hx]
    | false =>
      rw [history_append MAX tr X _ hx]
      simp [hx]

/-- C6, amended: on every history built by `recordSent` calls (from an empty
history) that is not empty, `showLast` clears `correction`, sets the index to
0, leaves the history as it is and puts the entry at index 0 in the buffer.
That entry is the oldest one still held: every other entry of the history was
last sent after it in the sequence of calls.  The newest entry, the last of
the list, is the text of the most recent recorded `recordSent` call, and the
buffer holds that text only when the history holds exactly one entry. -/
theorem showLast_shows_oldest (MAX : Nat) (tr : QCharTraits) (texts : List QString)
    (s : ChatEdit) (h0 : s.typedMsgsHistory = [])
    (hne : (recordAll MAX tr texts s).typedMsgsHistory ≠ []) :
    ∃ t, showHistoryMessageLast (recordAll MAX tr texts s) = some t ∧
      t.correction = false ∧ t.typedMsgsIndex = 0 ∧
      t.typedMsgsHistory = (recordAll MAX tr texts s).typedMsgsHistory ∧
      some t.plainText = (recordAll MAX tr texts s).typedMsgsHistory.head? ∧
      t.plainText ∈ texts ∧
      (∀ e ∈ (recordAll MAX tr texts s).typedMsgsHistory.tail,
        SentBefore texts t.plainText e) ∧
      (recordAll MAX tr texts s).typedMsgsHistory.getLast? = (recorded tr texts).getLast? ∧
      (some t.plainText = (recorded tr texts).getLast? ↔
        (recordAll MAX tr texts s).typedMsgsHistory.length = 1) := by
  have hn := recordAll_nodup MAX tr texts s (by rw [h0]; exact List.nodup_nil)
  obtain ⟨hmem, hpw⟩ := recordAll_order MAX tr s h0 texts
  have hlast := recordAll_getLast MAX tr s h0 texts
  generalize recordAll MAX tr texts s = r at hne hn hmem hpw hlast ⊢
  obtain ⟨h, i, ct, c, pt⟩ := r
  simp only at hne hn hmem hpw hlast ⊢
  cases h with
  | nil => exact absurd rfl hne
  | cons old rest =>
    have hpos : 0 < (old :: rest).length := by simp
    refine ⟨_, last_show (old :: rest) i ct c pt hpos, rfl, rfl, rfl, by simp,
      (hmem old (List.mem_cons_self _ _)).1, ?_, hlast, ?_⟩
    · intro e he
      exact (List.pairwise_cons.mp hpw).1 e he
    · rw [← hlast]
      have := head_eq_last_iff (old :: rest) hn hne
      simpa using this

theorem showLast_shows_oldest_witness :
    ChatEdit.init.typedMsgsHistory = [] ∧
    (recordAll 50 asciiTraits ["hi".toList, "there".toList] ChatEdit.init).typedMsgsHistory
      ≠ [] ∧
    ∃ t, showHistoryMessageLast
        (recordAll 50 asciiTraits ["hi".toList, "there".toList] ChatEdit.init) = some t ∧
      t.plainText = "hi".toList ∧
      SentBefore ["hi".toList, "there".toList] t.plainText "there".toList := by
  refine ⟨rfl, by decide, ?_⟩
  obtain ⟨t, ht, _, _, _, hhead, _, hsb, _, _⟩ :=
    showLast_shows_oldest 50 asciiTraits ["hi".toList, "there".toList] ChatEdit.init rfl
      (by decide)
  have hh : (recordAll 50 asciiTraits ["hi".toList, "there".toList]
      ChatEdit.init).typedMsgsHistory = ["hi".toList, "there".toList] := by decide
  rw [hh] at hhead hsb
  have hp : t.plainText = "hi".toList := by
    simpa using hhead
  exact ⟨t, ht, hp, hsb _ (by simp)⟩

theorem erase_eq_filter_ne (h : QStringList) (X : QString) (hn : h.Nodup) :
    h.erase X = h.filter (fun e => decide (e ≠ X)) := by
  rw [hn.erase_eq_filter X]
  congr 1
  funext e
  by_cases he : e = X <;> simp [he]

/-- C7: on a duplicate-free history `h` of at most `MAX_MESSAGE_HISTORY`
entries and a text `X` that is not blank, `appendMessageHistory` produces
exactly the history the specification describes (`recordSentSpec`), sets the
index to the new size, keeps the surviving entries in their order, and, when
`X` was already in a full history, evicts no other entry. -/
theorem recordSent_refines_spec (MAX : Nat) (tr : QCharTraits) (s : ChatEdit) (X : QString)
    (hn : s.typedMsgsHistory.Nodup) (hl : s.typedMsgsHistory.length ≤ MAX)
    (hX : simplifiedIsEmpty tr X = false) :
    (appendMessageHistory MAX tr X s).typedMsgsHistory = recordSentSpec MAX s.typedMsgsHistory X ∧
    (appendMessageHistory MAX tr X s).typedMsgsIndex = (appendMessageHistory MAX tr X s).size ∧
    (appendMessageHistory MAX tr X s).typedMsgsHistory.dropLast.Sublist s.typedMsgsHistory ∧
    (X ∈ s.typedMsgsHistory → s.typedMsgsHistory.length = MAX →
      (appendMessageHistory MAX tr X s).typedMsgsHistory
        = s.typedMsgsHistory.filter (fun e => decide (e ≠ X)) ++ [X]) := by
  have hh := history_append MAX tr X s hX
  have hf := erase_eq_filter_ne s.typedMsgsHistory X hn
  have hle : (s.typedMsgsHistory.erase X).length ≤ s.typedMsgsHistory.length :=
    (List.erase_sublist X s.typedMsgsHistory).length_le
  have hcond : (MAX ≤ (s.typedMsgsHistory.erase X).length) ↔
      ((s.typedMsgsHistory.erase X).length = MAX) := by omega
  refine ⟨?_, index_append MAX tr X s hX, ?_, ?_⟩
  · rw [hh]
    unfold recordSentSpec
    simp only [hcond, ← hf, List.drop_one]
  · rw [hh, List.dropLast_concat]
    split_ifs
    · exact (List.tail_sublist _).trans (List.erase_sublist X _)
    · exact List.erase_sublist X _
  · intro hmem hfull
    have hlt : (s.typedMsgsHistory.erase X).length = s.typedMsgsHistory.length - 1 :=
      List.length_erase_of_mem hmem
    have hpos : 0 < s.typedMsgsHistory.length := List.length_pos_of_mem hmem
    have hnot : ¬ (MAX ≤ (s.typedMsgsHistory.erase X).length) := by omega
    rw [hh, if_neg hnot, hf]

theorem recordSent_refines_spec_witness :
    (⟨["a".toList, "b".toList], 2, [], false, []⟩ : ChatEdit).typedMsgsHistory.Nodup ∧
    (⟨["a".toList, "b".toList], 2, [], false, []⟩ : ChatEdit).typedMsgsHistory.length ≤ 2 ∧
    simplifiedIsEmpty asciiTraits "a".toList = false ∧
    (appendMessageHistory 2 asciiTraits "a".toList
        ⟨["a".toList, "b".toList], 2, [], false, []⟩).typedMsgsHistory
      = recordSentSpec 2 ["a".toList, "b".toList] "a".toList :=
  ⟨by decide, by decide, by decide,
    (recordSent_refines_spec 2 asciiTraits ⟨["a".toList, "b".toList], 2, [], false, []⟩
      "a".toList (by decide) (by decide) (by decide)).1⟩

/-- C8: `recordSent` with a text made only of white space (the empty text
included) leaves the whole state unchanged: history, index and saved draft. -/
theorem blank_text_is_ignored (MAX : Nat) (tr : QCharTraits) (text : QString) (s : ChatEdit)
    (hblank : ∀ c ∈ text, tr.isSpace c = true) :
    (appendMessageHistory MAX tr text s).typedMsgsHistory = s.typedMsgsHistory ∧
    (appendMessageHistory MAX tr text s).typedMsgsIndex = s.typedMsgsIndex ∧
    (appendMessageHistory MAX tr text s).currentText = s.currentText ∧
    appendMessageHistory MAX tr text s = s := by
  have hx : simplifiedIsEmpty tr text = true := by
    unfold simplifiedIsEmpty
    exact List.all_eq_true.mpr hblank
  rw [append_blank MAX tr text s hx]
  exact ⟨rfl, rfl, rfl, rfl⟩

theorem blank_text_is_ignored_witness :
    (∀ c ∈ "   ".toList, asciiTraits.isSpace c = true) ∧
    appendMessageHistory 50 asciiTraits "   ".toList
        ⟨["hi".toList], 0, "hi".toList, true, "hi".toList⟩
      = ⟨["hi".toList], 0, "hi".toList, true, "hi".toList⟩ :=
  ⟨by decide,
    (blank_text_is_ignored 50 asciiTraits "   ".toList
      ⟨["hi".toList], 0, "hi".toList, true, "hi".toList⟩ (by decide)).2.2.2⟩

/-! ## Capitalisation of the first character -/

theorem changeChar_text (ctl : CapitalLettersController) (pos : Nat) (c : QChar)
    (hpos : pos < ctl.te.text.length) :
    (changeChar ctl pos c).te.text = ctl.te.text.set pos c := by
  have hlen : (ctl.te.text.take pos).length = pos := by
    rw [List.length_take]; omega
  unfold changeChar
  rw [if_pos (by omega)]
  simp only [TextEdit.insertChars, TextEdit.removeChars]
  rw [List.take_left' hlen, List.drop_left' hlen, List.set_eq_take_append_cons_drop, if_pos hpos]
  simp

/-- C10: with the controller enabled and the widget cursor at the end of the
text, a change notification at position 0 that adds 1 or 2 characters rewrites
the text as follows.  If the character at position 0 is a lower-case letter,
the text afterwards is the text before with that one character replaced by
its upper-case form; otherwise (another character, or no character at all)
the text is unchanged.  Typing "h" into an empty buffer gives "H". -/
theorem first_letter_capitalized (tr : QCharTraits) (ctl : CapitalLettersController)
    (charsRemoved charsAdded : Nat) (hen : ctl.enabled = true) (hend : ctl.te.atEnd = true)
    (hadd : charsAdded = 1 ∨ charsAdded = 2) :
    (∀ c, ctl.te.text.get? 0 = some c → tr.isLetter c = true → tr.isLower c = true →
      (textChanged tr ctl 0 charsRemoved charsAdded).te.text
        = ctl.te.text.set 0 (tr.toUpper c)) ∧
    ((∀ c, ctl.te.text.get? 0 = some c → ¬ (tr.isLetter c = true ∧ tr.isLower c = true)) →
      (textChanged tr ctl 0 charsRemoved charsAdded).te.text = ctl.te.text) ∧
    (textChanged asciiTraits ⟨⟨"h".toList, 1, 1⟩, true⟩ 0 0 1).te.text = "H".toList := by
  have h0 : ¬ (charsAdded = 0) := by omega
  have h3 : charsAdded < 3 := by omega
  refine ⟨?_, ?_, by decide⟩
  · intro c hc hletter hlower
    have hpos : 0 < ctl.te.text.length := by
      cases ht : ctl.te.text with
      | nil => rw [ht] at hc; simp at hc
      | cons a t => simp
    unfold textChanged
    simp only [hen, h0, hend, h3, if_true, if_false, Bool.not_true, Bool.false_eq_true,
      true_and, hc, hletter, hlower, Bool.or_self, capitalizeChar, and_self]
    exact changeChar_text ctl 0 (tr.toUpper c) hpos
  · intro hnot
    unfold textChanged
    simp only [hen, h0, hend, h3, if_true, if_false, Bool.not_true, Bool.false_eq_true,
      true_and, and_self]
    cases hc : ctl.te.text.get? 0 with
    | none => rfl
    | some c =>
      have hn := hnot c hc
      have : (!tr.isLetter c || !tr.isLower c) = true := by
        cases h1 : tr.isLetter c <;> cases h2 : tr.isLower c <;> simp_all
      simp only [this, if_true]

theorem first_letter_capitalized_witness :
    (⟨⟨"hi".toList, 2, 2⟩, true⟩ : CapitalLettersController).enabled = true ∧
    (⟨⟨"hi".toList, 2, 2⟩, true⟩ : CapitalLettersController).te.atEnd = true ∧
    (textChanged asciiTraits ⟨⟨"hi".toList, 2, 2⟩, true⟩ 0 0 2).te.text = "Hi".toList :=
  ⟨rfl, rfl,
    (first_letter_capitalized asciiTraits ⟨⟨"hi".toList, 2, 2⟩, true⟩ 0 2 rfl rfl
      (Or.inr rfl)).1 'h' rfl (by decide) (by decide)⟩

/-! ## The pattern matcher -/

theorem takeWhile_length_ge (p : QChar → Bool) (l : QString) (k : Nat) :
    k ≤ (l.takeWhile p).length ↔ ∀ q, q < k → ∃ ch, l[q]? = some ch ∧ p ch = true := by
  induction l generalizing k with
  | nil =>
    simp only [List.takeWhile_nil, List.length_nil, Nat.le_zero_eq]
    constructor
    · intro h q hq; omega
    · intro h
      by_contra hk
      obtain ⟨ch, hch, _⟩ := h 0 (by omega)
      simp at hch
  | cons a t ih =>
    by_cases ha : p a = true
    · rw [List.takeWhile_cons_of_pos ha]
      cases k with
      | zero => simp
      | succ k =>
        simp only [List.length_cons, Nat.add_le_add_iff_right, ih k]
        constructor
        · intro h q hq
          cases q with
          | zero => exact ⟨a, by simp, ha⟩
          | succ q => simpa using h q (by omega)
        · intro h q hq
          simpa using h (q + 1) (by omega)
    · rw [List.takeWhile_cons_of_neg ha]
      simp only [List.length_nil, Nat.le_zero_eq]
      constructor
      · intro h q hq; omega
      · intro h
        by_contra hk
        obtain ⟨ch, hch, hp⟩ := h 0 (by omega)
        simp at hch
        exact ha (hch ▸ hp)

theorem mem_atomEnds_atLeast (text : QString) (i m j : Nat) (p : QChar → Bool) :
    j ∈ atomEnds text i (.atLeast m p) ↔ i + m ≤ j ∧ AllIn text p i j := by
  simp only [atomEnds, List.mem_map, List.mem_filter, List.mem_range, decide_eq_true_eq]
  constructor
  · rintro ⟨k, ⟨hk, hm⟩, rfl⟩
    refine ⟨by omega, ?_⟩
    have hrun := (takeWhile_length_ge p (text.drop i) k).mp (by omega)
    intro q h1 h2
    obtain ⟨ch, hch, hp⟩ := hrun (q - i) (by omega)
    refine ⟨ch, ?_, hp⟩
    rw [List.getElem?_drop] at hch
    rw [← hch]; congr 1; omega
  · rintro ⟨hm, hall⟩
    refine ⟨j - i, ⟨?_, by omega⟩, by omega⟩
    have : j - i ≤ ((text.drop i).takeWhile p).length := by
      rw [takeWhile_length_ge]
      intro q hq
      obtain ⟨ch, hch, hp⟩ := hall (i + q) (by omega) (by omega)
      exact ⟨ch, by rw [List.getElem?_drop]; exact hch, hp⟩
    omega

theorem mem_atomEnds_one (text : QString) (i j : Nat) (p : QChar → Bool) :
    j ∈ atomEnds text i (.one p) ↔ j = i + 1 ∧ ∃ ch, text[i]? = some ch ∧ p ch = true := by
  simp only [atomEnds, List.get?_eq_getElem?]
  cases h : text[i]? with
  | none => simp
  | some c =>
    by_cases hp : p c = true
    · simp [hp]
    · simp [hp]

theorem mem_atomEnds_caret (text : QString) (i j : Nat) :
    j ∈ atomEnds text i .caret ↔ i = 0 ∧ j = i := by
  simp only [atomEnds]
  by_cases h : i = 0
  · simp [h]
  · simp [h]

theorem mem_foldl_ends (text : QString) (atoms : List RxAtom) :
    ∀ (L : List Nat) (j : Nat),
      j ∈ atoms.foldl (fun ends a => ends.flatMap (fun k => atomEnds text k a)) L ↔
        ∃ i ∈ L, j ∈ seqEnds text atoms i := by
  induction atoms with
  | nil =>
    intro L j
    simp only [List.foldl_nil]
    constructor
    · intro h; exact ⟨j, h, List.mem_singleton.mpr rfl⟩
    · rintro ⟨i, hi, hj⟩
      have hji : j = i := List.mem_singleton.mp hj
      rw [hji]; exact hi
  | cons a atoms ih =>
    intro L j
    have hcons : ∀ i, (j ∈ seqEnds text (a :: atoms) i ↔
        ∃ k ∈ atomEnds text i a, j ∈ seqEnds text atoms k) := by
      intro i
      have e : seqEnds text (a :: atoms) i =
          atoms.foldl (fun ends a => ends.flatMap (fun k => atomEnds text k a))
            ([i].flatMap (fun k => atomEnds text k a)) := rfl
      rw [e, ih]
      constructor
      · rintro ⟨k, hk, hj⟩
        rw [List.mem_flatMap] at hk
        obtain ⟨i2, hi2, hk⟩ := hk
        rw [List.mem_singleton.mp hi2] at hk
        exact ⟨k, hk, hj⟩
      · rintro ⟨k, hk, hj⟩
        exact ⟨k, List.mem_flatMap.mpr ⟨i, List.mem_singleton.mpr rfl, hk⟩, hj⟩
    rw [List.foldl_cons, ih]
    constructor
    · rintro ⟨k, hk, hj⟩
      rw [List.mem_flatMap] at hk
      obtain ⟨i, hi, hk⟩ := hk
      exact ⟨i, hi, (hcons i).mpr ⟨k, hk, hj⟩⟩
    · rintro ⟨i, hi, hj⟩
      obtain ⟨k, hk, hj⟩ := (hcons i).mp hj
      exact ⟨k, List.mem_flatMap.mpr ⟨i, hi, hk⟩, hj⟩

theorem mem_seqEnds_nil (text : QString) (i j : Nat) : j ∈ seqEnds text [] i ↔ j = i := by
  show j ∈ [i] ↔ j = i
  exact List.mem_singleton

theorem mem_seqEnds_cons (text : QString) (a : RxAtom) (atoms : List RxAtom) (i j : Nat) :
    j ∈ seqEnds text (a :: atoms) i ↔ ∃ k ∈ atomEnds text i a, j ∈ seqEnds text atoms k := by
  have e : seqEnds text (a :: atoms) i =
      (a :: atoms).foldl (fun ends a => ends.flatMap (fun k => atomEnds text k a)) [i] := rfl
  rw [e, mem_foldl_ends text (a :: atoms) [i] j]
  constructor
  · rintro ⟨i2, hi2, hj⟩
    rw [List.mem_singleton.mp hi2] at hj
    have e2 : seqEnds text (a :: atoms) i =
        atoms.foldl (fun ends a => ends.flatMap (fun k => atomEnds text k a))
          ([i].flatMap (fun k => atomEnds text k a)) := rfl
    rw [e2, mem_foldl_ends] at hj
    obtain ⟨k, hk, hj⟩ := hj
    rw [List.mem_flatMap] at hk
    obtain ⟨i3, hi3, hk⟩ := hk
    rw [List.mem_singleton.mp hi3] at hk
    exact ⟨k, hk, hj⟩
  · rintro ⟨k, hk, hj⟩
    refine ⟨i, List.mem_singleton.mpr rfl, ?_⟩
    have e2 : seqEnds text (a :: atoms) i =
        atoms.foldl (fun ends a => ends.flatMap (fun k => atomEnds text k a))
          ([i].flatMap (fun k => atomEnds text k a)) := rfl
    rw [e2, mem_foldl_ends]
    exact ⟨k, List.mem_flatMap.mpr ⟨i, List.mem_singleton.mpr rfl, hk⟩, hj⟩

/-- The ends of the matches of `capitalizeAfter` that start at `p`, one
disjunct for each alternative of the pattern. -/
theorem mem_ends_iff (tr : QCharTraits) (text : QString) (p j : Nat) :
    j ∈ (capitalizeAfter tr).flatMap (fun atoms => seqEnds text atoms p) ↔
      (p = 0 ∧ (∃ ch, text[0]? = some ch ∧ (ch != '.') = true) ∧
        ∃ k2, 2 ≤ k2 ∧ AllIn text (fun c => c == '.') 1 k2 ∧
          k2 + 1 ≤ j ∧ AllIn text tr.isSpace k2 j) ∨
      (∃ k1 k2 k3, p ≤ k1 ∧ AllIn text tr.isSpace p k1 ∧
        k1 + 2 ≤ k2 ∧ AllIn text (fun c => c != '.') k1 k2 ∧
        k2 + 1 ≤ k3 ∧ AllIn text (fun c => c == '.') k2 k3 ∧
        k3 + 1 ≤ j ∧ AllIn text tr.isSpace k3 j) ∨
      ((∃ ch, text[p]? = some ch ∧ (ch == '!' || ch == '?') = true) ∧
        p + 2 ≤ j ∧ AllIn text tr.isSpace (p + 1) j) := by
  simp only [capitalizeAfter, List.flatMap_cons, List.flatMap_nil, List.append_nil,
    List.mem_append, mem_seqEnds_cons, mem_seqEnds_nil, mem_atomEnds_caret, mem_atomEnds_one,
    mem_atomEnds_atLeast]
  constructor
  · rintro (h | h | h)
    · obtain ⟨k0, ⟨hp, rfl⟩, k1, ⟨rfl, hch⟩, k2, ⟨hk2, h2⟩, k3, ⟨hk3, h3⟩, rfl⟩ := h
      subst hp
      exact Or.inl ⟨rfl, hch, k2, by omega, h2, hk3, h3⟩
    · obtain ⟨k1, ⟨hk1, h1⟩, k2, ⟨hk2, h2⟩, k3, ⟨hk3, h3⟩, k4, ⟨hk4, h4⟩, rfl⟩ := h
      exact Or.inr (Or.inl ⟨k1, k2, k3, by omega, h1, hk2, h2, hk3, h3, hk4, h4⟩)
    · obtain ⟨k1, ⟨rfl, hch⟩, k2, ⟨hk2, h2⟩, rfl⟩ := h
      exact Or.inr (Or.inr ⟨hch, by omega, h2⟩)
  · rintro (⟨hp, hch, k2, hk2, h2, hk3, h3⟩ | ⟨k1, k2, k3, hk1, h1, hk2, h2, hk3, h3, hk4, h4⟩ |
      ⟨hch, hj, h2⟩)
    · subst hp
      exact Or.inl ⟨0, ⟨rfl, rfl⟩, 1, ⟨rfl, hch⟩, k2, ⟨by omega, h2⟩, j, ⟨hk3, h3⟩, rfl⟩
    · exact Or.inr (Or.inl ⟨k1, ⟨by omega, h1⟩, k2, ⟨hk2, h2⟩, k3, ⟨hk3, h3⟩, j, ⟨hk4, h4⟩, rfl⟩)
    · exact Or.inr (Or.inr ⟨p + 1, ⟨rfl, hch⟩, j, ⟨by omega, h2⟩, rfl⟩)

/-- Every match of `capitalizeAfter` is longer than nothing and ends with a
white space character. -/
theorem ends_space (tr : QCharTraits) (text : QString) (p j : Nat)
    (hj : j ∈ (capitalizeAfter tr).flatMap (fun atoms => seqEnds text atoms p)) :
    p < j ∧ ∃ ch, text[j - 1]? = some ch ∧ tr.isSpace ch = true := by
  rw [mem_ends_iff] at hj
  rcases hj with ⟨hp, _, k2, hk2, _, hk3, h3⟩ | ⟨k1, k2, k3, hk1, _, hk2, _, hk3, _, hk4, h4⟩ |
    ⟨_, hj, h2⟩
  · exact ⟨by omega, h3 (j - 1) (by omega) (by omega)⟩
  · exact ⟨by omega, h4 (j - 1) (by omega) (by omega)⟩
  · exact ⟨by omega, h2 (j - 1) (by omega) (by omega)⟩

theorem matchedLengthAt_eq_some (rx : Rx) (text : QString) (p len : Nat) :
    matchedLengthAt rx text p = some len ↔
      ∃ j, j ∈ rx.flatMap (fun atoms => seqEnds text atoms p) ∧
        (∀ k ∈ rx.flatMap (fun atoms => seqEnds text atoms p), k ≤ j) ∧ len = j - p := by
  unfold matchedLengthAt
  rw [Option.map_eq_some']
  constructor
  · rintro ⟨j, hj, rfl⟩
    rw [List.max?_eq_some_iff'] at hj
    exact ⟨j, hj.1, hj.2, rfl⟩
  · rintro ⟨j, hj, hmax, rfl⟩
    exact ⟨j, List.max?_eq_some_iff'.mpr ⟨hj, hmax⟩, rfl⟩

theorem matchedLengthAt_isSome (rx : Rx) (text : QString) (p j : Nat)
    (hj : j ∈ rx.flatMap (fun atoms => seqEnds text atoms p)) :
    ∃ len, matchedLengthAt rx text p = some len := by
  unfold matchedLengthAt
  cases h : (rx.flatMap (fun atoms => seqEnds text atoms p)).max? with
  | none =>
    rw [List.max?_eq_none_iff] at h
    rw [h] at hj
    exact absurd hj (List.not_mem_nil _)
  | some m => exact ⟨m - p, rfl⟩

/-- What `lastIndexFrom` returns is an offset below the bound at which the
pattern matches, with the matched length there. -/
theorem lastIndexFrom_some (rx : Rx) (text : QString) (m i len : Nat)
    (h : lastIndexFrom rx text m = some (i, len)) :
    i < m ∧ matchedLengthAt rx text i = some len := by
  induction m with
  | zero => simp [lastIndexFrom] at h
  | succ m ih =>
    unfold lastIndexFrom at h
    cases hm : matchedLengthAt rx text m with
    | none =>
      rw [hm] at h
      obtain ⟨h1, h2⟩ := ih h
      exact ⟨by omega, h2⟩
    | some l =>
      rw [hm] at h
      simp only [Option.some.injEq, Prod.mk.injEq] at h
      obtain ⟨rfl, rfl⟩ := h
      exact ⟨by omega, hm⟩

/-- If the pattern matches at some offset below the bound, `lastIndexFrom` finds
a match at that offset or at a later one. -/
theorem lastIndexFrom_ge (rx : Rx) (text : QString) (m p l : Nat) (hp : p < m)
    (h : matchedLengthAt rx text p = some l) :
    ∃ i len, lastIndexFrom rx text m = some (i, len) ∧ p ≤ i := by
  induction m with
  | zero => omega
  | succ m ih =>
    unfold lastIndexFrom
    cases hm : matchedLengthAt rx text m with
    | some l2 => exact ⟨m, l2, rfl, by omega⟩
    | none =>
      have hne : p ≠ m := by
        intro he; rw [he, hm] at h; exact absurd h (by simp)
      exact ih (by omega)

/-- A boundary can only end at `pos` if the character before `pos` is white
space. -/
theorem boundaryEndsAt_space (tr : QCharTraits) (text : QString) (pos : Nat)
    (h : boundaryEndsAt tr text pos = true) :
    0 < pos ∧ ∃ ch, text[pos - 1]? = some ch ∧ tr.isSpace ch = true := by
  unfold boundaryEndsAt lastIndexOf at h
  cases hl : lastIndexFrom (capitalizeAfter tr) text text.length with
  | none => rw [hl] at h; simp at h
  | some r =>
    obtain ⟨index, len⟩ := r
    rw [hl] at h
    simp only [beq_iff_eq] at h
    obtain ⟨_, hm⟩ := lastIndexFrom_some _ _ _ _ _ hl
    rw [matchedLengthAt_eq_some] at hm
    obtain ⟨j, hj, _, hlen⟩ := hm
    obtain ⟨hlt, hsp⟩ := ends_space tr text index j hj
    have hpos : pos = j := by omega
    rw [hpos]
    exact ⟨by omega, hsp⟩

theorem index_lt_length (text : QString) (q : Nat) (ch : QChar) (h : text[q]? = some ch) :
    q < text.length := by
  by_contra hq
  rw [List.getElem?_eq_none (by omega)] at h
  exact absurd h (by simp)

theorem AllIn.mono {text : QString} {p : QChar → Bool} {i j i2 j2 : Nat}
    (h : AllIn text p i j) (hi : i ≤ i2) (hj : j2 ≤ j) : AllIn text p i2 j2 :=
  fun q h1 h2 => h q (by omega) (by omega)

theorem allIn_segment (l1 seg l2 : QString) (p : QChar → Bool)
    (hseg : ∀ x ∈ seg, p x = true) :
    AllIn (l1 ++ seg ++ l2) p l1.length (l1.length + seg.length) := by
  intro q h1 h2
  have hq : q - l1.length < seg.length := by omega
  refine ⟨seg[q - l1.length], ?_, hseg _ (List.getElem_mem _)⟩
  rw [List.append_assoc, List.getElem?_append_right h1,
    List.getElem?_append_left hq, List.getElem?_eq_getElem hq]

theorem BoundaryShape.space_index {tr : QCharTraits} {text : QString} {a b n : Nat} {c : QChar}
    (sh : BoundaryShape tr text a b n c) (k : Nat) (hk : a ≤ k)
    (hsp : ∃ ch, text[k]? = some ch ∧ tr.isSpace ch = true) : b ≤ k ∧ k < n := by
  obtain ⟨ch, hch, hs⟩ := hsp
  have hlt := index_lt_length text k ch hch
  have h1 : b ≤ k := by
    by_contra hlt2
    obtain ⟨ch2, hch2, hd⟩ := sh.periods k hk (by omega)
    rw [hch] at hch2
    simp only [Option.some.injEq] at hch2
    subst hch2
    simp only [beq_iff_eq] at hd
    subst hd
    rw [sh.dotNotSpace] at hs
    exact absurd hs (by simp)
  have h2 : k ≠ n := by
    intro he
    rw [he, sh.last] at hch
    simp only [Option.some.injEq] at hch
    subst hch
    rw [sh.lastNotSpace] at hs
    exact absurd hs (by simp)
  have := sh.hlen
  exact ⟨h1, by omega⟩

theorem BoundaryShape.ends_le {tr : QCharTraits} {text : QString} {a b n : Nat} {c : QChar}
    (sh : BoundaryShape tr text a b n c) (p j : Nat)
    (hj : j ∈ (capitalizeAfter tr).flatMap (fun atoms => seqEnds text atoms p)) : j ≤ n := by
  obtain ⟨hlt, ch, hch, hs⟩ := ends_space tr text p j hj
  have h1 := index_lt_length text (j - 1) ch hch
  have h2 : j - 1 ≠ n := by
    intro he
    rw [he, sh.last] at hch
    simp only [Option.some.injEq] at hch
    subst hch
    rw [sh.lastNotSpace] at hs
    exact absurd hs (by simp)
  have := sh.hlen
  omega

/-- A match that starts after the two characters before the periods, if there
is one, can be stretched to end just before the last character. -/
theorem BoundaryShape.late_ends {tr : QCharTraits} {text : QString} {a b n : Nat} {c : QChar}
    (sh : BoundaryShape tr text a b n c) (p j : Nat) (hp0 : 0 < p) (hpa : a ≤ p + 1)
    (hj : j ∈ (capitalizeAfter tr).flatMap (fun atoms => seqEnds text atoms p)) :
    n ∈ (capitalizeAfter tr).flatMap (fun atoms => seqEnds text atoms p) := by
  rw [mem_ends_iff] at hj ⊢
  rcases hj with ⟨hp, _⟩ | ⟨k1, k2, k3, hk1, h1, hk2, h2, hk3, h3, hk4, h4⟩ | ⟨hch, hj, h2⟩
  · omega
  · obtain ⟨hb, hn⟩ := sh.space_index k3 (by omega) (h4 k3 (by omega) (by omega))
    exact Or.inr (Or.inl ⟨k1, k2, k3, hk1, h1, hk2, h2, hk3, h3, by omega,
      sh.spaces.mono hb (le_refl n)⟩)
  · obtain ⟨hb, hn⟩ := sh.space_index (p + 1) (by omega) (h2 (p + 1) (by omega) (by omega))
    exact Or.inr (Or.inr ⟨hch, by omega, sh.spaces.mono hb (le_refl n)⟩)

/-- In a text of that shape, if some match that starts at most two
characters before the periods ends just before the last character, then
`lastIndexOf` reports a boundary ending there. -/
theorem BoundaryShape.boundary_found {tr : QCharTraits} {text : QString} {a b n : Nat}
    {c : QChar} (sh : BoundaryShape tr text a b n c) (pstar : Nat) (hps : a ≤ pstar + 2)
    (hstar : n ∈ (capitalizeAfter tr).flatMap (fun atoms => seqEnds text atoms pstar)) :
    Psi.boundaryEndsAt tr text n = true := by
  have hpn : pstar < n := (ends_space tr text pstar n hstar).1
  obtain ⟨l, hl⟩ := matchedLengthAt_isSome _ text pstar n hstar
  obtain ⟨i, len, hlast, hpi⟩ :=
    lastIndexFrom_ge (capitalizeAfter tr) text text.length pstar l
      (by rw [sh.hlen]; omega) hl
  obtain ⟨hilt, hm⟩ := lastIndexFrom_some _ _ _ _ _ hlast
  rw [matchedLengthAt_eq_some] at hm
  obtain ⟨j, hj, hmax, hlen⟩ := hm
  have hjn : j ≤ n := sh.ends_le i j hj
  have hnmem : n ∈ (capitalizeAfter tr).flatMap (fun atoms => seqEnds text atoms i) := by
    by_cases he : i = pstar
    · rw [he]; exact hstar
    · exact sh.late_ends i j (by omega) (by omega) hj
  have hnj : n ≤ j := hmax n hnmem
  have hij : i < j := (ends_space tr text i j hj).1
  unfold Psi.boundaryEndsAt lastIndexOf
  rw [hlast]
  simp only [beq_iff_eq]
  omega

/-! ## Capitalisation after a sentence boundary -/

theorem textChanged_capitalizes (tr : QCharTraits) (ctl : CapitalLettersController)
    (pos charsRemoved : Nat) (c : QChar) (hen : ctl.enabled = true) (hend : ctl.te.atEnd = true)
    (hpos : 0 < pos) (hb : boundaryEndsAt tr ctl.te.text pos = true)
    (hc : ctl.te.text[pos]? = some c) (hletter : tr.isLetter c = true)
    (hlower : tr.isLower c = true) :
    (textChanged tr ctl pos charsRemoved 1).te.text = ctl.te.text.set pos (tr.toUpper c) := by
  have hp0 : ¬ (pos = 0) := by omega
  have hlt := index_lt_length _ _ _ hc
  unfold textChanged
  simp only [hen, hend, hp0, hb, if_true, if_false, Bool.not_true, Bool.false_eq_true,
    one_ne_zero, false_and, gt_iff_lt, lt_self_iff_false, List.get?_eq_getElem?, hc, hletter,
    hlower, Bool.or_self, capitalizeChar]
  exact changeChar_text ctl pos (tr.toUpper c) hlt

theorem set_last (T : QString) (c u : QChar) : (T ++ [c]).set T.length u = T ++ [u] := by
  rw [List.set_append_right _ _ (le_refl _)]
  simp

theorem textChanged_no_boundary (tr : QCharTraits) (ctl : CapitalLettersController)
    (pos charsRemoved : Nat) (hpos : 0 < pos) (hb : boundaryEndsAt tr ctl.te.text pos = false) :
    textChanged tr ctl pos charsRemoved 1 = ctl := by
  have hp0 : ¬ (pos = 0) := by omega
  unfold textChanged
  simp only [hp0, hb, false_and, if_false, gt_iff_lt, lt_self_iff_false, one_ne_zero]
  split_ifs <;> rfl

theorem shape_of_parts (tr : QCharTraits) (L P W : QString) (c : QChar)
    (hP : P ≠ []) (hPd : ∀ x ∈ P, x = '.') (hW : W ≠ []) (hWs : ∀ x ∈ W, tr.isSpace x = true)
    (hcs : tr.isSpace c = false) (hdot : tr.isSpace '.' = false) :
    BoundaryShape tr (L ++ P ++ W ++ [c]) L.length (L.length + P.length)
      (L.length + P.length + W.length) c := by
  have hPl : 0 < P.length := List.length_pos.mpr hP
  have hWl : 0 < W.length := List.length_pos.mpr hW
  refine ⟨by omega, by omega, by simp only [List.length_append, List.length_singleton], ?_, ?_, ?_,
    hcs, hdot⟩
  · have e : L ++ P ++ W ++ [c] = L ++ P ++ (W ++ [c]) := by simp
    rw [e]
    exact allIn_segment L P (W ++ [c]) _ (fun x hx => by simp [hPd x hx])
  · have h := allIn_segment (L ++ P) W [c] tr.isSpace hWs
    simp only [List.length_append] at h
    exact h
  · have e : L.length + P.length + W.length = (L ++ P ++ W).length := by
      simp only [List.length_append]
    rw [e, List.getElem?_append_right (le_refl _)]
    simp

/-- C11: with the controller enabled, let the text before the typed character
end with two or more characters other than a period, then one or more
periods, then one or more white space characters.  Typing one lower-case
letter `c` at the end (notification at the old length, one character added,
cursor at the end) leaves the text equal to the old text followed by the
upper-case form of `c`.  Neither the period nor `c` is white space, as in Qt.
"Hello. " followed by "w" gives "Hello. W". -/
theorem capitalized_after_sentence (tr : QCharTraits) (ctl : CapitalLettersController)
    (pre X P W : QString) (c : QChar) (charsRemoved : Nat)
    (hen : ctl.enabled = true) (hend : ctl.te.atEnd = true)
    (htext : ctl.te.text = pre ++ X ++ P ++ W ++ [c])
    (hX : 2 ≤ X.length) (hXn : ∀ x ∈ X, x ≠ '.')
    (hP : P ≠ []) (hPd : ∀ x ∈ P, x = '.')
    (hW : W ≠ []) (hWs : ∀ x ∈ W, tr.isSpace x = true)
    (hletter : tr.isLetter c = true) (hlower : tr.isLower c = true)
    (hcs : tr.isSpace c = false) (hdot : tr.isSpace '.' = false) :
    (textChanged tr ctl (pre ++ X ++ P ++ W).length charsRemoved 1).te.text
        = pre ++ X ++ P ++ W ++ [tr.toUpper c] ∧
    (textChanged asciiTraits ⟨⟨"Hello. w".toList, 8, 8⟩, true⟩ 7 0 1).te.text
        = "Hello. W".toList := by
  refine ⟨?_, by decide⟩
  have sh := shape_of_parts tr (pre ++ X) P W c hP hPd hW hWs hcs hdot
  have hPl : 0 < P.length := List.length_pos.mpr hP
  have hWl : 0 < W.length := List.length_pos.mpr hW
  have hn : (pre ++ X ++ P ++ W).length = (pre ++ X).length + P.length + W.length := by
    simp only [List.length_append]
  have hXall : AllIn (pre ++ X ++ P ++ W ++ [c]) (fun c => c != '.')
      ((pre ++ X).length - 2) (pre ++ X).length := by
    have e : pre ++ X ++ P ++ W ++ [c] = pre ++ X ++ (P ++ W ++ [c]) := by simp
    rw [e]
    have h := allIn_segment pre X (P ++ W ++ [c]) (fun c => c != '.')
      (fun x hx => by simpa using hXn x hx)
    exact h.mono (by simp; omega) (by simp)
  have hstar : (pre ++ X).length + P.length + W.length ∈
      (capitalizeAfter tr).flatMap
        (fun atoms => seqEnds (pre ++ X ++ P ++ W ++ [c]) atoms ((pre ++ X).length - 2)) := by
    rw [mem_ends_iff]
    refine Or.inr (Or.inl ⟨(pre ++ X).length - 2, (pre ++ X).length,
      (pre ++ X).length + P.length, le_refl _, ?_, ?_, hXall, by omega, sh.periods, by omega,
      sh.spaces⟩)
    · intro q h1 h2; omega
    · simp only [List.length_append]; omega
  have hb := sh.boundary_found ((pre ++ X).length - 2) (by omega) hstar
  have hc : ctl.te.text[(pre ++ X ++ P ++ W).length]? = some c := by
    rw [htext, hn]; exact sh.last
  rw [← htext] at hb
  rw [← hn] at hb
  rw [textChanged_capitalizes tr ctl _ charsRemoved c hen hend (by rw [hn]; omega) hb hc
    hletter hlower, htext]
  exact set_last _ c _

theorem capitalized_after_sentence_witness :
    (textChanged asciiTraits ⟨⟨"So it goes...  x".toList, 16, 16⟩, true⟩ 15 0 1).te.text
      = "So it goes...  X".toList :=
  (capitalized_after_sentence asciiTraits ⟨⟨"So it goes...  x".toList, 16, 16⟩, true⟩
    "So it go".toList "es".toList "...".toList "  ".toList 'x' 0 rfl rfl rfl
    (by decide) (by decide) (by decide) (by decide) (by decide) (by decide) (by decide)
    (by decide) (by decide) (by decide)).1

/-- C12, as stated, fails: "e.g. " ends with the single character "g" (the
one before it is a period), a period and a space, yet a "w" typed after it is
left as it is.  The alternative of the pattern for a single character starts
with a caret, so it only matches at the start of the buffer. -/
theorem single_character_needs_buffer_start :
    (textChanged asciiTraits ⟨⟨"e.g. w".toList, 6, 6⟩, true⟩ 5 0 1).te.text = "e.g. w".toList ∧
    (textChanged asciiTraits ⟨⟨"e.g. w".toList, 6, 6⟩, true⟩ 5 0 1).te.text
      ≠ "e.g. W".toList := by
  decide

/-- C12, amended: with the controller enabled, let the text before the typed
character be exactly one character other than a period (the first character
of the buffer), then one or more periods, then one or more white space
characters, such as "a. ".  Typing one lower-case letter `c` at the end leaves
the text equal to the old text followed by the upper-case form of `c`.
Neither the period nor `c` is white space, as in Qt. -/
theorem capitalized_after_initial_character (tr : QCharTraits)
    (ctl : CapitalLettersController) (x : QChar) (P W : QString) (c : QChar)
    (charsRemoved : Nat)
    (hen : ctl.enabled = true) (hend : ctl.te.atEnd = true)
    (htext : ctl.te.text = [x] ++ P ++ W ++ [c])
    (hx : x ≠ '.')
    (hP : P ≠ []) (hPd : ∀ y ∈ P, y = '.')
    (hW : W ≠ []) (hWs : ∀ y ∈ W, tr.isSpace y = true)
    (hletter : tr.isLetter c = true) (hlower : tr.isLower c = true)
    (hcs : tr.isSpace c = false) (hdot : tr.isSpace '.' = false) :
    (textChanged tr ctl ([x] ++ P ++ W).length charsRemoved 1).te.text
        = [x] ++ P ++ W ++ [tr.toUpper c] ∧
    (textChanged asciiTraits ⟨⟨"a. w".toList, 4, 4⟩, true⟩ 3 0 1).te.text
        = "a. W".toList := by
  refine ⟨?_, by decide⟩
  have sh := shape_of_parts tr [x] P W c hP hPd hW hWs hcs hdot
  have hPl : 0 < P.length := List.length_pos.mpr hP
  have hWl : 0 < W.length := List.length_pos.mpr hW
  have hn : ([x] ++ P ++ W).length = [x].length + P.length + W.length := by
    simp only [List.length_append]
  have h1 : [x].length = 1 := rfl
  have hstar : [x].length + P.length + W.length ∈
      (capitalizeAfter tr).flatMap (fun atoms => seqEnds ([x] ++ P ++ W ++ [c]) atoms 0) := by
    rw [mem_ends_iff]
    refine Or.inl ⟨rfl, ⟨x, by simp, by simpa using hx⟩, [x].length + P.length, by omega, ?_,
      by omega, sh.spaces⟩
    exact sh.periods
  have hb := sh.boundary_found 0 (by omega) hstar
  have hc : ctl.te.text[([x] ++ P ++ W).length]? = some c := by
    rw [htext, hn]; exact sh.last
  rw [← htext] at hb
  rw [← hn] at hb
  rw [textChanged_capitalizes tr ctl _ charsRemoved c hen hend (by rw [hn]; omega) hb hc
    hletter hlower, htext]
  exact set_last _ c _

theorem capitalized_after_initial_character_witness :
    (textChanged asciiTraits ⟨⟨"I...  x".toList, 7, 7⟩, true⟩ 6 0 1).te.text
      = "I...  X".toList :=
  (capitalized_after_initial_character asciiTraits ⟨⟨"I...  x".toList, 7, 7⟩, true⟩
    'I' "...".toList "  ".toList 'x' 0 rfl rfl rfl
    (by decide) (by decide) (by decide) (by decide) (by decide) (by decide) (by decide)
    (by decide) (by decide)).1

/-- C13: a notification that adds one character at a position greater than 0
where the character just before that position is not white space leaves the
controller, and so the buffer, unchanged: the typed character stays as it
is.  "Hello world" followed by "w" stays "Hello worldw". -/
theorem unchanged_without_boundary (tr : QCharTraits) (ctl : CapitalLettersController)
    (pos charsRemoved : Nat) (hpos : 0 < pos)
    (hprev : ∀ ch, ctl.te.text[pos - 1]? = some ch → tr.isSpace ch = false) :
    textChanged tr ctl pos charsRemoved 1 = ctl ∧
    (textChanged asciiTraits ⟨⟨"Hello worldw".toList, 12, 12⟩, true⟩ 11 0 1).te.text
      = "Hello worldw".toList := by
  refine ⟨?_, by decide⟩
  apply textChanged_no_boundary tr ctl pos charsRemoved hpos
  cases hb : boundaryEndsAt tr ctl.te.text pos with
  | false => rfl
  | true =>
    obtain ⟨_, ch, hch, hs⟩ := boundaryEndsAt_space tr ctl.te.text pos hb
    rw [hprev ch hch] at hs
    exact absurd hs (by simp)

theorem unchanged_without_boundary_witness :
    textChanged asciiTraits ⟨⟨"Stop.x".toList, 6, 6⟩, true⟩ 5 0 1
      = ⟨⟨"Stop.x".toList, 6, 6⟩, true⟩ :=
  (unchanged_without_boundary asciiTraits ⟨⟨"Stop.x".toList, 6, 6⟩, true⟩ 5 0 (by decide)
    (by decide)).1

/-- C14: a notification that adds 3 or more characters at any position, or 2
or more characters at a position greater than 0, leaves the controller, and
so the buffer, unchanged.  A paste of 5 characters at the end of "Hello. "
changes nothing. -/
theorem bulk_insert_ignored (tr : QCharTraits) (ctl : CapitalLettersController)
    (pos charsRemoved charsAdded : Nat)
    (hbulk : 3 ≤ charsAdded ∨ (2 ≤ charsAdded ∧ 0 < pos)) :
    textChanged tr ctl pos charsRemoved charsAdded = ctl ∧
    textChanged asciiTraits ⟨⟨"Hello. world".toList, 12, 12⟩, true⟩ 7 0 5
      = ⟨⟨"Hello. world".toList, 12, 12⟩, true⟩ := by
  refine ⟨?_, by decide⟩
  have h0 : ¬ (charsAdded = 0) := by omega
  have h1 : ¬ (pos = 0 ∧ charsAdded < 3) := by omega
  have h2 : charsAdded > 1 := by omega
  unfold textChanged
  simp only [h0, h1, h2, if_true, if_false]
  split_ifs <;> rfl

theorem bulk_insert_ignored_witness :
    textChanged asciiTraits ⟨⟨"abc".toList, 3, 3⟩, true⟩ 0 0 3
      = ⟨⟨"abc".toList, 3, 3⟩, true⟩ :=
  (bulk_insert_ignored asciiTraits ⟨⟨"abc".toList, 3, 3⟩, true⟩ 0 0 3 (Or.inl (le_refl 3))).1

/-! ## The bulk case change -/

theorem changeChar_enabled (ctl : CapitalLettersController) (pos : Nat) (c : QChar) :
    (changeChar ctl pos c).enabled = ctl.enabled := by
  unfold changeChar
  split_ifs <;> rfl

theorem changeCaseAt_enabled (tr : QCharTraits) (ctl : CapitalLettersController) (begin : Nat) :
    (changeCaseAt tr ctl begin).enabled = ctl.enabled := by
  unfold changeCaseAt
  cases ctl.te.text.get? begin with
  | none => rfl
  | some ch =>
    simp only [capitalizeChar, decapitalizeChar]
    split_ifs <;> first | rfl | exact changeChar_enabled _ _ _

/-- One turn of the loop swaps the case of the character at `begin` and
leaves the others alone. -/
theorem changeCaseAt_get (tr : QCharTraits) (ctl : CapitalLettersController) (begin i : Nat)
    (ch : QChar) (hch : ctl.te.text[i]? = some ch) :
    (changeCaseAt tr ctl begin).te.text[i]? =
      some (if i = begin then swapCase tr ch else ch) := by
  have hi := index_lt_length _ _ _ hch
  unfold changeCaseAt
  rw [List.get?_eq_getElem?]
  by_cases hib : i = begin
  · subst hib
    rw [hch]
    simp only [if_true, swapCase, capitalizeChar, decapitalizeChar]
    cases hl : tr.isLetter ch with
    | false => simpa using hch
    | true =>
      cases hlow : tr.isLower ch with
      | false =>
        simp only [Bool.not_true, Bool.false_eq_true, if_false, if_true]
        rw [changeChar_text ctl i _ hi, List.getElem?_set_self hi]
      | true =>
        simp only [Bool.not_true, Bool.false_eq_true, if_false, if_true]
        rw [changeChar_text ctl i _ hi, List.getElem?_set_self hi]
  · simp only [hib, if_false]
    cases hb : ctl.te.text[begin]? with
    | none => exact hch
    | some cb =>
      have hbl := index_lt_length _ _ _ hb
      simp only [capitalizeChar, decapitalizeChar]
      split_ifs
      · exact hch
      · rw [changeChar_text ctl begin _ hbl, List.getElem?_set_ne (Ne.symm hib)]; exact hch
      · rw [changeChar_text ctl begin _ hbl, List.getElem?_set_ne (Ne.symm hib)]; exact hch

theorem changeCaseAt_length (tr : QCharTraits) (ctl : CapitalLettersController) (begin : Nat) :
    (changeCaseAt tr ctl begin).te.text.length = ctl.te.text.length := by
  unfold changeCaseAt
  rw [List.get?_eq_getElem?]
  cases hb : ctl.te.text[begin]? with
  | none => rfl
  | some cb =>
    have hbl := index_lt_length _ _ _ hb
    simp only [capitalizeChar, decapitalizeChar]
    split_ifs
    · rfl
    · rw [changeChar_text ctl begin _ hbl, List.length_set]
    · rw [changeChar_text ctl begin _ hbl, List.length_set]

theorem changeCaseLoop_enabled (tr : QCharTraits) (count : Nat) :
    ∀ (begin : Nat) (ctl : CapitalLettersController),
      (changeCaseLoop tr count begin ctl).enabled = ctl.enabled := by
  induction count with
  | zero => intro begin ctl; rfl
  | succ count ih =>
    intro begin ctl
    rw [changeCaseLoop, ih, changeCaseAt_enabled]

theorem changeCaseLoop_length (tr : QCharTraits) (count : Nat) :
    ∀ (begin : Nat) (ctl : CapitalLettersController),
      (changeCaseLoop tr count begin ctl).te.text.length = ctl.te.text.length := by
  induction count with
  | zero => intro begin ctl; rfl
  | succ count ih =>
    intro begin ctl
    rw [changeCaseLoop, ih, changeCaseAt_length]

/-- The loop swaps the case of the characters from `begin` up to
`begin + count` (excluded) and leaves the others alone. -/
theorem changeCaseLoop_get (tr : QCharTraits) (count : Nat) :
    ∀ (begin : Nat) (ctl : CapitalLettersController) (i : Nat) (ch : QChar),
      ctl.te.text[i]? = some ch →
      (changeCaseLoop tr count begin ctl).te.text[i]? =
        some (if begin ≤ i ∧ i < begin + count then swapCase tr ch else ch) := by
  induction count with
  | zero =>
    intro begin ctl i ch hch
    have : ¬ (begin ≤ i ∧ i < begin + 0) := by omega
    rw [if_neg this]
    exact hch
  | succ count ih =>
    intro begin ctl i ch hch
    rw [changeCaseLoop, ih (begin + 1) _ i _ (changeCaseAt_get tr ctl begin i ch hch)]
    by_cases hib : i = begin
    · have h1 : ¬ (begin + 1 ≤ i ∧ i < begin + 1 + count) := by omega
      have h2 : begin ≤ i ∧ i < begin + (count + 1) := by omega
      rw [if_neg h1, if_pos hib, if_pos h2]
    · rw [if_neg hib]
      by_cases hr : begin + 1 ≤ i ∧ i < begin + 1 + count
      · have h2 : begin ≤ i ∧ i < begin + (count + 1) := by omega
        rw [if_pos hr, if_pos h2]
      · have h2 : ¬ (begin ≤ i ∧ i < begin + (count + 1)) := by omega
        rw [if_neg hr, if_neg h2]

theorem changeCase_text (tr : QCharTraits) (ctl : CapitalLettersController) :
    (changeCase tr ctl).te.text =
      (changeCaseLoop tr (changeCaseEnd ctl.te - changeCaseBegin ctl.te) (changeCaseBegin ctl.te)
        { ctl with enabled := false }).te.text := rfl

/-- C15: `changeCase` (`toggleCase`) keeps the length of the buffer.  With a
selection, every character inside it has its case swapped (`swapCase`: a
lower-case letter becomes upper case, any other letter lower case, and a
character that is not a letter stays) and every character outside it is
unchanged; without a selection every character of the buffer has its case
swapped.  A selection holding "AbC1d" becomes "aBc1D". -/
theorem changeCase_swaps_range (tr : QCharTraits) (ctl : CapitalLettersController) :
    (changeCase tr ctl).te.text.length = ctl.te.text.length ∧
    (∀ i ch, ctl.te.text[i]? = some ch →
      (ctl.te.anchor ≠ ctl.te.position →
        (changeCase tr ctl).te.text[i]? =
          some (if min ctl.te.anchor ctl.te.position ≤ i ∧
                  i < max ctl.te.anchor ctl.te.position
                then swapCase tr ch else ch)) ∧
      (ctl.te.anchor = ctl.te.position →
        (changeCase tr ctl).te.text[i]? = some (swapCase tr ch))) ∧
    changeCase asciiTraits ⟨⟨"xxAbC1dyy".toList, 7, 2⟩, true⟩
      = ⟨⟨"xxaBc1Dyy".toList, 7, 7⟩, true⟩ ∧
    changeCase asciiTraits ⟨⟨"AbC1d".toList, 3, 3⟩, true⟩
      = ⟨⟨"aBc1D".toList, 3, 3⟩, true⟩ := by
  refine ⟨?_, ?_, by decide, by decide⟩
  · rw [changeCase_text, changeCaseLoop_length]
  · intro i ch hch
    have hi := index_lt_length _ _ _ hch
    have hget := changeCaseLoop_get tr (changeCaseEnd ctl.te - changeCaseBegin ctl.te)
      (changeCaseBegin ctl.te) { ctl with enabled := false } i ch hch
    rw [changeCase_text, hget]
    constructor
    · intro hsel
      have hs : ctl.te.hasSelection = true := by
        simp only [TextEdit.hasSelection, bne_iff_ne, ne_eq]; exact hsel
      simp only [changeCaseBegin, changeCaseEnd, hs, if_true, TextEdit.selectionStart,
        TextEdit.selectionEnd]
      have hle : min ctl.te.anchor ctl.te.position ≤ max ctl.te.anchor ctl.te.position :=
        le_trans (min_le_left _ _) (le_max_left _ _)
      congr 2
      apply propext
      constructor
      · rintro ⟨h1, h2⟩; exact ⟨h1, by omega⟩
      · rintro ⟨h1, h2⟩; exact ⟨h1, by omega⟩
    · intro hsel
      have hs : ctl.te.hasSelection = false := by
        simp only [TextEdit.hasSelection, hsel, bne_self_eq_false]
      simp only [changeCaseBegin, changeCaseEnd, hs, Bool.false_eq_true, if_false,
        TextEdit.characterCount]
      rw [if_pos ⟨by omega, by omega⟩]

/-- C16: after `changeCase` (`toggleCase`) the `enabled_` flag has the value
it had before the call and the widget cursor is at the position it had before
the call, while the flag is off for the controller that runs the rewrite. -/
theorem changeCase_restores_flag_and_cursor (tr : QCharTraits)
    (ctl : CapitalLettersController) :
    (changeCase tr ctl).enabled = ctl.enabled ∧
    (changeCase tr ctl).te.position = ctl.te.position ∧
    (changeCaseRewrite tr ctl).enabled = false ∧
    (changeCase tr ctl).te.text = (changeCaseRewrite tr ctl).te.text := by
  refine ⟨rfl, rfl, ?_, rfl⟩
  unfold changeCaseRewrite
  rw [changeCaseLoop_enabled]

end Psi
